import Mathlib

/-!
Verification development for the `shredder` secure file deletion library.

The Rust sources are shallowly embedded: byte buffers become `List Nat`,
machine integers become `Nat` (no overflow is reachable at the modelled
call sites: all quantities are sizes and offsets bounded by the file
length), fallible operations return `Except WipeError`, and operations
that can panic or diverge in Rust (e.g. `chunks_mut(0)`) are wrapped in
`Option`, with `none` marking the panic. Platform I/O (opening files,
hardware secure erase in `secure_erase.rs`, TRIM in `trim.rs`, sync,
unlink, the entropy source) is represented by an explicit environment of
oracle results, mirroring the design's treatment of those operations as
narrow external collaborator interfaces.
-/

set_option maxHeartbeats 1000000

/-! ## Pattern engine (`src/patterns.rs`) -/

/-- Wiping patterns, from `patterns.rs::WipePattern`. -/
inductive WipePattern : Type where
  | zeros
  | ones
  | random
  | custom (bytes : List Nat)
deriving DecidableEq, Repr

/-- Fuel-indexed implementation of the `chunks_mut` tiling loop (structural
recursion so that concrete runs reduce; a non-empty pattern consumes at least
one byte per chunk, so `fuel = n` iterations always suffice). -/
def fillChunksGo (pat : List Nat) : Nat → Nat → List Nat
  | _, 0 => []
  | 0, _ + 1 => []
  | fuel + 1, m + 1 => pat.take (m + 1) ++ fillChunksGo pat fuel (m + 1 - pat.length)

/-- One round of `buffer.chunks_mut(pat.len())` tiling from
`WipePattern::fill_buffer`: each chunk of size `pat.length` receives a copy of
`pat`, the final partial chunk receives only the bytes that fit.  Produces a
buffer of `n` bytes.  (Callers guard `pat ≠ []`; the empty-pattern branch only
serves totality and is never reached from `fill_buffer`.) -/
def fillChunks (pat : List Nat) (n : Nat) : List Nat :=
  if pat.length = 0 then [] else fillChunksGo pat n n

/-- `WipePattern::fill_buffer`.  The Rust function mutates `buffer` in place;
here the filled buffer is returned.  `rng` models the thread-local CSPRNG
(`rand::thread_rng().fill_bytes`).  The result is `none` exactly when the Rust
code panics: `buffer.chunks_mut(0)` on an empty custom pattern. -/
def fill_buffer (p : WipePattern) (rng : Nat → Nat) (buffer : List Nat) : Option (List Nat) :=
  match p with
  | .zeros => some (List.replicate buffer.length 0x00)
  | .ones => some (List.replicate buffer.length 0xFF)
  | .random => some ((List.range buffer.length).map rng)
  | .custom pat =>
      if pat.length = 0 then none
      else some (fillChunks pat buffer.length)

/-- Fuel-indexed implementation of the `chunks` comparison loop of
`WipePattern::verify_buffer` (structural recursion; `fuel = buffer.length`
iterations always suffice for a non-empty pattern). -/
def verifyChunksGo (pat : List Nat) : Nat → List Nat → Bool
  | _, [] => true
  | 0, _ :: _ => true
  | fuel + 1, b :: bs =>
      ((b :: bs).take pat.length == pat.take ((b :: bs).take pat.length).length)
        && verifyChunksGo pat fuel ((b :: bs).drop pat.length)

/-- The chunkwise comparison of `WipePattern::verify_buffer` for `Custom`:
`buffer.chunks(pat.len()).all(|chunk| chunk[..len] == pat[..len])` where
`len = min(chunk.len(), pat.len())`, i.e. every chunk equals the prefix of
`pat` of the chunk's length.  (Callers guard `pat ≠ []`; the empty-pattern
branch only serves totality and is never reached from `verify_buffer`.) -/
def verifyChunks (pat : List Nat) (buffer : List Nat) : Bool :=
  if pat.length = 0 then true else verifyChunksGo pat buffer.length buffer

/-- `WipePattern::verify_buffer`.  `none` exactly when the Rust code panics:
`buffer.chunks(0)` on an empty custom pattern. -/
def verify_buffer (p : WipePattern) (buffer : List Nat) : Option Bool :=
  match p with
  | .zeros => some (buffer.all (· == 0x00))
  | .ones => some (buffer.all (· == 0xFF))
  | .random => some true
  | .custom pat =>
      if pat.length = 0 then none
      else some (verifyChunks pat buffer)

/-- The buffer the spec calls "the tiled pattern": `n` bytes obtained by
repeating the pattern's byte sequence from offset 0.  Used to state
verification claims; deliberately written from the spec's words
(pointwise tiling), independently of the chunk loops above. -/
def tiledSpec (p : WipePattern) (n : Nat) : List Nat :=
  match p with
  | .zeros => List.replicate n 0x00
  | .ones => List.replicate n 0xFF
  | .random => List.replicate n 0x00
  | .custom pat => (List.range n).map (fun i => pat.getD (i % pat.length) 0)

/-! ## Standard catalog (`src/standards.rs`) -/

/-- `standards.rs::SanitizationMethod`. -/
inductive SanitizationMethod : Type where
  | clear
  | purge
deriving DecidableEq, Repr

/-- `standards.rs::VerificationLevel`. -/
inductive VerificationLevel : Type where
  | none
  | basic
  | full
  | enhanced
deriving DecidableEq, Repr

/-- `standards.rs::LegacyStandard`. -/
inductive LegacyStandard : Type where
  | dod522022M
  | gutmann
  | vsitrStandard
deriving DecidableEq, Repr

/-- `standards.rs::Nist80088Config`. -/
structure Nist80088Config : Type where
  method : SanitizationMethod
  verify_level : VerificationLevel
deriving DecidableEq, Repr

/-- `standards.rs::LegacyConfig`. -/
structure LegacyConfig : Type where
  standard : LegacyStandard
  extra_verification : Bool
deriving DecidableEq, Repr

/-- `standards.rs::WipeConfig`. -/
structure WipeConfig : Type where
  passes : List WipePattern
  verify_each_pass : Bool
deriving DecidableEq, Repr

/-- `standards.rs::WipeStandard`. -/
inductive WipeStandard : Type where
  | modern (config : Nist80088Config)
  | legacy (config : LegacyConfig)
  | custom (config : WipeConfig)
deriving DecidableEq, Repr

/-- `LegacyStandard::gutmann_patterns`: 4 random passes, the 27 fixed
three-byte patterns pushed by `extend_from_slice`, then 4 random passes. -/
def LegacyStandard.gutmann_patterns : List WipePattern :=
  List.replicate 4 .random ++
    [ .custom [0x55, 0x55, 0x55],
      .custom [0xAA, 0xAA, 0xAA],
      .custom [0x92, 0x49, 0x24],
      .custom [0x49, 0x24, 0x92],
      .custom [0x24, 0x92, 0x49],
      .custom [0x00, 0x00, 0x00],
      .custom [0x11, 0x11, 0x11],
      .custom [0x22, 0x22, 0x22],
      .custom [0x33, 0x33, 0x33],
      .custom [0x44, 0x44, 0x44],
      .custom [0x55, 0x55, 0x55],
      .custom [0x66, 0x66, 0x66],
      .custom [0x77, 0x77, 0x77],
      .custom [0x88, 0x88, 0x88],
      .custom [0x99, 0x99, 0x99],
      .custom [0xAA, 0xAA, 0xAA],
      .custom [0xBB, 0xBB, 0xBB],
      .custom [0xCC, 0xCC, 0xCC],
      .custom [0xDD, 0xDD, 0xDD],
      .custom [0xEE, 0xEE, 0xEE],
      .custom [0xFF, 0xFF, 0xFF],
      .custom [0x92, 0x49, 0x24],
      .custom [0x49, 0x24, 0x92],
      .custom [0x24, 0x92, 0x49],
      .custom [0x6D, 0xB6, 0xDB],
      .custom [0xB6, 0xDB, 0x6D],
      .custom [0xDB, 0x6D, 0xB6] ] ++
    List.replicate 4 .random

/-- `LegacyStandard::get_patterns`. -/
def LegacyStandard.get_patterns : LegacyStandard → List WipePattern
  | .dod522022M => [.zeros, .ones, .random]
  | .vsitrStandard => [.zeros, .ones, .zeros, .ones, .zeros, .ones, .random]
  | .gutmann => LegacyStandard.gutmann_patterns

/-- The 27 fixed three-byte Gutmann values as the claim lists them
(the documented table: 0x555555, 0xAAAAAA, 0x924924, its byte rotations,
the sixteen nibble-doubling values 0x000000 .. 0xFFFFFF, the 0x924924
rotations again, and the 0x6DB6DB/0xB6DB6D/0xDB6DB6 rotations). -/
def gutmannTableClaim : List (List Nat) :=
  [ [0x55, 0x55, 0x55], [0xAA, 0xAA, 0xAA],
    [0x92, 0x49, 0x24], [0x49, 0x24, 0x92], [0x24, 0x92, 0x49],
    [0x00, 0x00, 0x00], [0x11, 0x11, 0x11], [0x22, 0x22, 0x22],
    [0x33, 0x33, 0x33], [0x44, 0x44, 0x44], [0x55, 0x55, 0x55],
    [0x66, 0x66, 0x66], [0x77, 0x77, 0x77], [0x88, 0x88, 0x88],
    [0x99, 0x99, 0x99], [0xAA, 0xAA, 0xAA], [0xBB, 0xBB, 0xBB],
    [0xCC, 0xCC, 0xCC], [0xDD, 0xDD, 0xDD], [0xEE, 0xEE, 0xEE],
    [0xFF, 0xFF, 0xFF],
    [0x92, 0x49, 0x24], [0x49, 0x24, 0x92], [0x24, 0x92, 0x49],
    [0x6D, 0xB6, 0xDB], [0xB6, 0xDB, 0x6D], [0xDB, 0x6D, 0xB6] ]

/-! ## Storage classifier (`src/storage.rs`) -/

/-- `storage.rs::StorageCapabilities`. -/
structure StorageCapabilities : Type where
  supports_trim : Bool
  supports_secure_erase : Bool
  supports_nvme_sanitize : Bool
  has_wear_leveling : Bool
deriving DecidableEq, Repr

/-- `storage.rs::StorageType`. -/
inductive StorageType : Type where
  | hdd (caps : StorageCapabilities)
  | ssd (caps : StorageCapabilities)
  | flash (caps : StorageCapabilities)
deriving DecidableEq, Repr

/-- `StorageType::supports_secure_erase`. -/
def StorageType.supports_secure_erase : StorageType → Bool
  | .ssd caps | .hdd caps => caps.supports_secure_erase
  | .flash _ => false

/-- `StorageType::requires_wear_leveling_handling`. -/
def StorageType.requires_wear_leveling_handling : StorageType → Bool
  | .flash caps | .ssd caps => caps.has_wear_leveling
  | .hdd _ => false

/-- The `supports_trim` flag carried by any variant (used only to state
properties; the source reads the flag after matching in
`Shredder::handle_wear_leveling`). -/
def StorageType.trimFlag : StorageType → Bool
  | .hdd caps | .ssd caps | .flash caps => caps.supports_trim

/-! ## Errors (`src/lib.rs::WipeError`) -/

/-- `lib.rs::WipeError`.  The Rust `VerificationFailed` variant carries a
formatted message; the offset a message names (`"... at offset {w}"`) is kept
structurally as `some w`, and `none` stands for the offset-free message of the
full-verification mismatch. -/
inductive WipeError : Type where
  | io (msg : String)
  | verificationFailed (offset : Option Nat)
  | unsupportedOperation (msg : String)
  | parseError (msg : String)
deriving DecidableEq, Repr

def exceptDecEqAux {ε α : Type} [DecidableEq ε] [DecidableEq α] :
    (a b : Except ε α) → Decidable (a = b)
  | .ok a, .ok b =>
      match decEq a b with
      | isTrue h => isTrue (by rw [h])
      | isFalse h => isFalse (fun hc => h (by cases hc; rfl))
  | .ok _, .error _ => isFalse (fun hc => by cases hc)
  | .error _, .ok _ => isFalse (fun hc => by cases hc)
  | .error e, .error f =>
      match decEq e f with
      | isTrue h => isTrue (by rw [h])
      | isFalse h => isFalse (fun hc => h (by cases hc; rfl))

instance {ε α : Type} [DecidableEq ε] [DecidableEq α] : DecidableEq (Except ε α) :=
  exceptDecEqAux

/-! ## Overwrite engine (`Shredder::overwrite_file_contents`) -/

/-- Replace the bytes of `content` starting at `off` with `bytes`
(the effect of `seek(Start off); write_all(bytes)` on a file that is long
enough, which holds at every call site: chunks never extend the file). -/
def writeSlice (content : List Nat) (off : Nat) (bytes : List Nat) : List Nat :=
  content.take off ++ bytes ++ content.drop (off + bytes.length)

/-- The `while written < file_size` loop of `Shredder::overwrite_file_contents`.
`corrupt off bytes` is the device model: the bytes that actually land on disk
when `bytes` are written at `off` (an honest device returns them unchanged; a
faulty one does not, which is what the immediate readback is there to catch).
`fuel` bounds the iteration count; `none` models the diverging/panicking runs
(zero write size, or `chunks_mut(0)` on an empty pattern buffer), which no
in-repo call site reaches. -/
def overwriteLoop (bufSize : Nat) (pattern : List Nat)
    (corrupt : Nat → List Nat → List Nat) (fileSize : Nat) :
    Nat → Nat → List Nat → Option (Except WipeError (List Nat))
  | fuel, written, content =>
    if written < fileSize then
      match fuel with
      | 0 => none
      | fuel + 1 =>
        if pattern.length = 0 then none
        else
          let writeBuffer := fillChunks pattern bufSize
          let writeSize := min (fileSize - written) bufSize
          let intended := writeBuffer.take writeSize
          let stored := corrupt written intended
          let content2 := writeSlice content written stored
          let readBack := (content2.drop written).take writeSize
          if readBack = intended then
            overwriteLoop bufSize pattern corrupt fileSize fuel (written + writeSize) content2
          else
            some (.error (.verificationFailed (some written)))
    else
      some (.ok content)

/-- `Shredder::overwrite_file_contents`: streams the tiled `pattern` across
the file from offset 0 to `fileSize`, with an immediate per-chunk readback
verification.  Returns the file content after the pass. -/
def overwrite_file_contents (bufSize : Nat) (pattern : List Nat)
    (corrupt : Nat → List Nat → List Nat) (content : List Nat) (fileSize : Nat) :
    Option (Except WipeError (List Nat)) :=
  overwriteLoop bufSize pattern corrupt fileSize fileSize 0 content

/-- The first `n` bytes an uncorrupted pass writes at offset 0: the
`bufSize`-byte write buffer tiled from `pattern`, truncated chunk by chunk. -/
def passBytes (bufSize : Nat) (pattern : List Nat) (n : Nat) : List Nat :=
  if h : bufSize = 0 then []
  else if h2 : n = 0 then []
  else
    let ws := min n bufSize
    (fillChunks pattern bufSize).take ws ++ passBytes bufSize pattern (n - ws)
termination_by n
decreasing_by
  have h1 : 1 ≤ min n bufSize :=
    le_min (Nat.pos_of_ne_zero h2) (Nat.pos_of_ne_zero h)
  exact Nat.sub_lt (Nat.pos_of_ne_zero h2) h1

/-! ## Verification (`Shredder::verify_wiping`) -/

/-- The sampling loop of the `Basic` branch of `Shredder::verify_wiping`.
`rng i` is the `i`-th value drawn from `rand::random::<u64>()`.  Returns the
offsets actually sampled together with the result.  The loop breaks with
success as soon as `max_offset == 0` (file not larger than one pattern
length). -/
def verifyBasicGo (pattern content : List Nat) (rng : Nat → Nat) :
    Nat → Nat → List Nat × Except WipeError Unit
  | _, 0 => ([], .ok ())
  | i, k + 1 =>
    let maxOffset := content.length - pattern.length
    if maxOffset = 0 then ([], .ok ())
    else
      let offset := rng i % maxOffset
      let sample := (content.drop offset).take pattern.length
      if sample = pattern then
        let rest := verifyBasicGo pattern content rng (i + 1) k
        (offset :: rest.1, rest.2)
      else
        ([offset], .error (.verificationFailed (some offset)))

/-- The `Basic` branch of `Shredder::verify_wiping`: an empty file is
considered verified; otherwise `max(file_size / 100, 1)` samples are drawn. -/
def verify_basic (pattern content : List Nat) (rng : Nat → Nat) :
    Except WipeError Unit :=
  if content.length = 0 then .ok ()
  else (verifyBasicGo pattern content rng 0 (max (content.length / 100) 1)).2

/-- The offsets the `Basic` branch actually reads. -/
def sampledOffsets (pattern content : List Nat) (rng : Nat → Nat) : List Nat :=
  if content.length = 0 then []
  else (verifyBasicGo pattern content rng 0 (max (content.length / 100) 1)).1

/-- The `read_exact` loop shared by the `Full` and `Enhanced` branches of
`Shredder::verify_wiping`: read pattern-length blocks from offset 0, stop with
success at the first partial block (`UnexpectedEof`), fail on the first
mismatching block.  `fuel ≥ content.length` suffices for a nonempty pattern;
exhausted fuel (`none`) models the divergence of the Rust loop on an empty
pattern buffer, which no in-repo call site reaches. -/
def verifyFullLoop (pattern : List Nat) :
    Nat → List Nat → Option (Except WipeError Unit)
  | fuel, rest =>
    if rest.length < pattern.length then some (.ok ())
    else
      match fuel with
      | 0 => none
      | fuel + 1 =>
        if rest.take pattern.length = pattern then
          verifyFullLoop pattern fuel (rest.drop pattern.length)
        else
          some (.error (.verificationFailed none))

/-- `Shredder::verify_wiping`, dispatching on the `VerificationLevel`. -/
def verify_wiping (level : VerificationLevel) (pattern content : List Nat)
    (rng : Nat → Nat) : Option (Except WipeError Unit) :=
  match level with
  | .none => some (.ok ())
  | .basic => some (verify_basic pattern content rng)
  | .full | .enhanced =>
      if content.length = 0 then some (.ok ())
      else verifyFullLoop pattern (content.length + 1) content

/-! ## The Shredder configuration object (`src/lib.rs::Shredder`) -/

/-- `lib.rs::Shredder`. -/
structure Shredder : Type where
  standard : WipeStandard
  storage_type : StorageType
  buffer_size : Nat

/-- `Shredder::new`: 1 MiB default write buffer. -/
def Shredder.new (standard : WipeStandard) (storage_type : StorageType) : Shredder :=
  { standard := standard, storage_type := storage_type, buffer_size := 1024 * 1024 }

/-- `Shredder::with_buffer_size`: clamps to [4 KiB, 16 MiB]. -/
def Shredder.with_buffer_size (s : Shredder) (size : Nat) : Shredder :=
  { s with buffer_size := max (4 * 1024) (min size (16 * 1024 * 1024)) }

/-- `Shredder::get_buffer_size`. -/
def Shredder.get_buffer_size (s : Shredder) : Nat :=
  s.buffer_size

/-- `Shredder::calculate_optimal_buffer_size`: the pattern-buffer size, about
1% of the file clamped to [4 KiB, 8 MiB]; tiny files get a buffer of exactly
their size. -/
def calculate_optimal_buffer_size (fileSize : Nat) : Nat :=
  let maxBuffer := 8 * 1024 * 1024
  let minBuffer := 4 * 1024
  if fileSize < minBuffer then fileSize
  else min maxBuffer (max minBuffer (fileSize / 100))

/-! ## Wipe orchestrator (`Shredder::wipe` and the `perform_*` functions)

The orchestrator is stateful I/O code; it is embedded as an explicit
computation over the one piece of shared state the claims are about — whether
the target path still exists — together with a trace of the externally visible
steps taken, in order.  Results of the external collaborator calls (open,
hardware secure erase, TRIM, sync, unlink) are supplied by a `WipeEnv` of
oracle outcomes, and the in-core file content manipulation reuses the
`overwrite_file_contents`/`verify_wiping` models above. -/

/-- The externally visible steps of a wipe, in the order they are attempted. -/
inductive WipeEvent : Type where
  | openFile
  | trimOp
  | hwSecureErase
  | passOverwrite (p : WipePattern)
  | verifyOp (level : VerificationLevel)
  | syncAll
  | removeFile
deriving DecidableEq, Repr

/-- Oracle outcomes for the platform calls a wipe makes, plus the initial file
content, the device write model and the entropy streams. -/
structure WipeEnv : Type where
  openRes : Except WipeError Unit
  content : List Nat
  corrupt : Nat → List Nat → List Nat
  rngFill : Nat → Nat → Nat
  rngSample : Nat → Nat
  hwRes : Except WipeError Unit
  trimRes : Except WipeError Unit
  syncRes : Except WipeError Unit
  removeRes : Except WipeError Unit

/-- A wipe computation: given whether the file currently exists, produce the
emitted events, the new existence state and the result — or `none` for the
(unreachable from in-repo call sites) panicking/diverging runs. -/
abbrev WipeM (α : Type) : Type :=
  Bool → Option (List WipeEvent × Bool × Except WipeError α)

/-- Pure wipe computation: no events, no state change. -/
def wpure {α : Type} (a : α) : WipeM α :=
  fun w => some ([], w, .ok a)

/-- Sequencing with `?`-propagation: an error short-circuits, a panic is
absorbing, traces concatenate. -/
def wseq {α β : Type} (x : WipeM α) (f : α → WipeM β) : WipeM β :=
  fun w =>
    match x w with
    | none => none
    | some (tr, w2, .error e) => some (tr, w2, .error e)
    | some (tr, w2, .ok a) =>
        match f a w2 with
        | none => none
        | some (tr2, w3, r) => some (tr ++ tr2, w3, r)

/-- An external step: emits its event, leaves the file in place, returns the
oracle result. -/
def liftStep (ev : WipeEvent) (r : Except WipeError Unit) : WipeM Unit :=
  fun w => some ([ev], w, r)

/-- Lift a possibly-panicking pure computation. -/
def liftPanic {α : Type} (x : Option α) : WipeM α :=
  fun w =>
    match x with
    | none => none
    | some a => some ([], w, .ok a)

/-- `std::fs::remove_file`: on success the path no longer exists. -/
def removeStep (r : Except WipeError Unit) : WipeM Unit :=
  fun w =>
    some ([.removeFile],
      (match r with
       | .ok _ => false
       | .error _ => w), r)

/-- One overwrite pass (`pattern.fill_buffer(&mut buffer)` has already
produced `patBuf`; this is the `overwrite_file_contents` call), tagged with
the pass's `WipePattern`. -/
def overwriteStep (bufSize : Nat) (p : WipePattern)
    (corrupt : Nat → List Nat → List Nat) (patBuf content : List Nat)
    (fileSize : Nat) : WipeM (List Nat) :=
  fun w =>
    match overwrite_file_contents bufSize patBuf corrupt content fileSize with
    | none => none
    | some (.ok c) => some ([.passOverwrite p], w, .ok c)
    | some (.error e) => some ([.passOverwrite p], w, .error e)

/-- A `verify_wiping` call. -/
def verifyStep (level : VerificationLevel) (patBuf content : List Nat)
    (rng : Nat → Nat) : WipeM Unit :=
  fun w =>
    match verify_wiping level patBuf content rng with
    | none => none
    | some r => some ([.verifyOp level], w, r)

/-- The hardware secure erase attempt of the `Purge` branch: the event is
emitted, but the oracle's outcome is returned as a value, because
`perform_modern_wipe` inspects it and never propagates its error
(`if let Err(e) = ... { warn!(...); fall back }`). -/
def hwAttemptStep (env : WipeEnv) : WipeM (Except WipeError Unit) :=
  fun w => some ([.hwSecureErase], w, .ok env.hwRes)

/-- `Shredder::handle_wear_leveling`: for `Ssd`/`Flash` with `supports_trim`,
attempt TRIM (`perform_trim_operation`), whose failure propagates; otherwise
do nothing. -/
def handle_wear_leveling (sh : Shredder) (env : WipeEnv) : WipeM Unit :=
  match sh.storage_type with
  | .ssd caps | .flash caps =>
      if caps.supports_trim then liftStep .trimOp env.trimRes else wpure ()
  | .hdd _ => wpure ()

/-- The `if self.storage_type.requires_wear_leveling_handling()` guard of
`perform_modern_wipe`. -/
def wearSection (sh : Shredder) (env : WipeEnv) : WipeM Unit :=
  if sh.storage_type.requires_wear_leveling_handling then
    handle_wear_leveling sh env
  else wpure ()

/-- The shared tail of all three wipe paths: `file.sync_all()` then
`std::fs::remove_file(path)`. -/
def finishSteps (env : WipeEnv) : WipeM Unit :=
  wseq (liftStep .syncAll env.syncRes) (fun _ => removeStep env.removeRes)

/-- The per-pass loop shared by `perform_legacy_wipe`, `perform_custom_wipe`
and `perform_purge_overwrite`: for each pattern, fill the pattern buffer,
stream it over the file, and — when `verifyAfter = some level` — run
`verify_wiping` at that level against the buffer just used.  Returns the final
content and the last filled buffer (against which any later whole-wipe
verification compares). -/
def passLoop (bufSize : Nat) (env : WipeEnv) (optSize fileSize : Nat)
    (verifyAfter : Option VerificationLevel) :
    List WipePattern → Nat → List Nat → List Nat → WipeM (List Nat × List Nat)
  | [], _, content, buffer => wpure (content, buffer)
  | p :: ps, idx, content, _buffer =>
      wseq (liftPanic (fill_buffer p (env.rngFill idx) (List.replicate optSize 0))) (fun buf =>
      wseq (overwriteStep bufSize p env.corrupt buf content fileSize) (fun c =>
      wseq (match verifyAfter with
            | some level => verifyStep level buf c env.rngSample
            | none => wpure ()) (fun _ =>
      passLoop bufSize env optSize fileSize verifyAfter ps (idx + 1) c buf)))

/-- The `Purge` overwrite fallback `Shredder::perform_purge_overwrite`:
4 software passes Random, Zeros, Ones, Random. -/
def purgePatterns : List WipePattern :=
  [.random, .zeros, .ones, .random]

/-- `Shredder::perform_purge_overwrite`. -/
def perform_purge_overwrite (sh : Shredder) (env : WipeEnv)
    (optSize fileSize : Nat) (content buffer : List Nat) :
    WipeM (List Nat × List Nat) :=
  passLoop sh.buffer_size env optSize fileSize Option.none purgePatterns 0 content buffer

/-- The method dispatch of `perform_modern_wipe`: `Clear` is a single random
pass; `Purge` attempts hardware secure erase when the storage type supports
it, falling back to `perform_purge_overwrite` on any hardware failure. -/
def modernMethod (sh : Shredder) (cfg : Nist80088Config) (env : WipeEnv)
    (optSize fileSize : Nat) : WipeM (List Nat × List Nat) :=
  match cfg.method with
  | .clear =>
      wseq (liftPanic (fill_buffer .random (env.rngFill 0) (List.replicate optSize 0))) (fun buf =>
      wseq (overwriteStep sh.buffer_size .random env.corrupt buf env.content fileSize) (fun c =>
      wpure (c, buf)))
  | .purge =>
      if sh.storage_type.supports_secure_erase then
        wseq (hwAttemptStep env) (fun hw =>
          match hw with
          | .ok _ => wpure (env.content, List.replicate optSize 0)
          | .error _ =>
              perform_purge_overwrite sh env optSize fileSize env.content
                (List.replicate optSize 0))
      else
        perform_purge_overwrite sh env optSize fileSize env.content
          (List.replicate optSize 0)

/-- The verification step of `perform_modern_wipe`: run once, at the
configured level, when that level is not `None`. -/
def modernVerify (cfg : Nist80088Config) (cb : List Nat × List Nat)
    (env : WipeEnv) : WipeM Unit :=
  if cfg.verify_level ≠ .none then
    verifyStep cfg.verify_level cb.2 cb.1 env.rngSample
  else wpure ()

/-- `Shredder::perform_modern_wipe`. -/
def perform_modern_wipe (sh : Shredder) (cfg : Nist80088Config) (env : WipeEnv) :
    WipeM Unit :=
  wseq (liftStep .openFile env.openRes) (fun _ =>
  wseq (wearSection sh env) (fun _ =>
  wseq (modernMethod sh cfg env (calculate_optimal_buffer_size env.content.length)
          env.content.length) (fun cb =>
  wseq (modernVerify cfg cb env) (fun _ =>
  finishSteps env))))

/-- `Shredder::perform_legacy_wipe`. -/
def perform_legacy_wipe (sh : Shredder) (cfg : LegacyConfig) (env : WipeEnv) :
    WipeM Unit :=
  wseq (liftStep .openFile env.openRes) (fun _ =>
  wseq (passLoop sh.buffer_size env (calculate_optimal_buffer_size env.content.length)
          env.content.length
          (if cfg.extra_verification then some .basic else Option.none)
          cfg.standard.get_patterns 0 env.content
          (List.replicate (calculate_optimal_buffer_size env.content.length) 0)) (fun cb =>
  wseq (if cfg.extra_verification then verifyStep .full cb.2 cb.1 env.rngSample
        else wpure ()) (fun _ =>
  finishSteps env)))

/-- `Shredder::perform_custom_wipe`. -/
def perform_custom_wipe (sh : Shredder) (cfg : WipeConfig) (env : WipeEnv) :
    WipeM Unit :=
  wseq (liftStep .openFile env.openRes) (fun _ =>
  wseq (passLoop sh.buffer_size env (calculate_optimal_buffer_size env.content.length)
          env.content.length
          (if cfg.verify_each_pass then some .full else Option.none)
          cfg.passes 0 env.content
          (List.replicate (calculate_optimal_buffer_size env.content.length) 0)) (fun _ =>
  finishSteps env))

/-- `Shredder::wipe`: dispatch on the configured standard. -/
def Shredder.wipe (sh : Shredder) (env : WipeEnv) : WipeM Unit :=
  match sh.standard with
  | .modern cfg => perform_modern_wipe sh cfg env
  | .legacy cfg => perform_legacy_wipe sh cfg env
  | .custom cfg => perform_custom_wipe sh cfg env

/-- The observable outcome of a wipe invocation. -/
structure WipeOutcome : Type where
  result : Except WipeError Unit
  trace : List WipeEvent
  fileExists : Bool
deriving DecidableEq, Repr

/-- Run a wipe against an existing file. -/
def runWipe (sh : Shredder) (env : WipeEnv) : Option WipeOutcome :=
  match sh.wipe env true with
  | Option.none => Option.none
  | some (tr, w, r) => some { result := r, trace := tr, fileExists := w }

/-- A wipe computation that never changes whether the file exists (every step
before the final removal is of this kind). -/
def PreservesW {α : Type} (x : WipeM α) : Prop :=
  ∀ w tr w2 r, x w = some (tr, w2, r) → w2 = w

/-- A wipe computation every emitted event of which satisfies `P`. -/
def TraceOk {α : Type} (P : WipeEvent → Prop) (x : WipeM α) : Prop :=
  ∀ w tr w2 r, x w = some (tr, w2, r) → ∀ ev ∈ tr, P ev

/-- The pre-removal part of `perform_modern_wipe` (everything before the
shared sync-and-remove tail). -/
def modernMain (sh : Shredder) (cfg : Nist80088Config) (env : WipeEnv) :
    WipeM Unit :=
  wseq (liftStep .openFile env.openRes) (fun _ =>
  wseq (wearSection sh env) (fun _ =>
  wseq (modernMethod sh cfg env (calculate_optimal_buffer_size env.content.length)
          env.content.length) (fun cb =>
  modernVerify cfg cb env)))

/-- The pre-removal part of `perform_legacy_wipe`. -/
def legacyMain (sh : Shredder) (cfg : LegacyConfig) (env : WipeEnv) :
    WipeM Unit :=
  wseq (liftStep .openFile env.openRes) (fun _ =>
  wseq (passLoop sh.buffer_size env (calculate_optimal_buffer_size env.content.length)
          env.content.length
          (if cfg.extra_verification then some .basic else Option.none)
          cfg.standard.get_patterns 0 env.content
          (List.replicate (calculate_optimal_buffer_size env.content.length) 0)) (fun cb =>
  if cfg.extra_verification then verifyStep .full cb.2 cb.1 env.rngSample
  else wpure ()))

/-- The pre-removal part of `perform_custom_wipe`. -/
def customMain (sh : Shredder) (cfg : WipeConfig) (env : WipeEnv) :
    WipeM (List Nat × List Nat) :=
  wseq (liftStep .openFile env.openRes) (fun _ =>
  passLoop sh.buffer_size env (calculate_optimal_buffer_size env.content.length)
      env.content.length
      (if cfg.verify_each_pass then some .full else Option.none)
      cfg.passes 0 env.content
      (List.replicate (calculate_optimal_buffer_size env.content.length) 0))

/-- An honest device: readback returns exactly the written bytes. -/
def honestDev : Nat → List Nat → List Nat := fun _ b => b

/-- An environment in which every external step succeeds, over an empty file. -/
def envAllOk : WipeEnv :=
  { openRes := .ok (), content := [], corrupt := honestDev,
    rngFill := fun _ _ => 0, rngSample := fun _ => 0,
    hwRes := .ok (), trimRes := .ok (), syncRes := .ok (), removeRes := .ok () }

/-- A DoD legacy shredder on an SSD with full capabilities. -/
def shLegacyDod : Shredder :=
  { standard := .legacy { standard := .dod522022M, extra_verification := false },
    storage_type := .ssd
      { supports_trim := true, supports_secure_erase := true,
        supports_nvme_sanitize := true, has_wear_leveling := true },
    buffer_size := 2 }

/-- Whether `WipeEvent` is an overwrite pass. -/
def isPassEvent : WipeEvent → Bool
  | .passOverwrite _ => true
  | _ => false

/-- The events the wear-leveling section of `perform_modern_wipe` emits when
its TRIM attempt does not fail: a TRIM exactly when the storage both requires
wear-leveling handling and carries the `supports_trim` flag. -/
def wearEvents (sh : Shredder) : List WipeEvent :=
  if sh.storage_type.requires_wear_leveling_handling && sh.storage_type.trimFlag
  then [.trimOp] else []

/-- A Modern Purge configuration with no whole-wipe verification. -/
def cfgPurge : Nist80088Config :=
  { method := .purge, verify_level := .none }

/-- A Modern Purge shredder on a fully capable SSD. -/
def shPurgeSsd : Shredder :=
  { standard := .modern cfgPurge,
    storage_type := .ssd
      { supports_trim := true, supports_secure_erase := true,
        supports_nvme_sanitize := true, has_wear_leveling := true },
    buffer_size := 2 }

/-- An environment whose hardware secure erase fails, everything else fine. -/
def envHwFail : WipeEnv :=
  { envAllOk with hwRes := .error (.io "hw") }

/-- An environment whose TRIM attempt fails, everything else fine. -/
def envTrimFail : WipeEnv :=
  { envAllOk with trimRes := .error (.io "trim") }

/-! ## Helper lemmas: pattern engine -/

theorem fillChunksGo_zero (pat : List Nat) (fuel : Nat) :
    fillChunksGo pat fuel 0 = [] := by
  cases fuel <;> rfl

theorem fillChunksGo_fuel (pat : List Nat) (hp : pat.length ≠ 0) :
    ∀ f1 f2 n, n ≤ f1 → n ≤ f2 →
      fillChunksGo pat f1 n = fillChunksGo pat f2 n := by
  intro f1
  induction f1 with
  | zero =>
    intro f2 n h1 _
    have : n = 0 := Nat.le_zero.mp h1
    subst this
    rw [fillChunksGo_zero, fillChunksGo_zero]
  | succ f1 ih =>
    intro f2 n h1 h2
    cases n with
    | zero => rw [fillChunksGo_zero, fillChunksGo_zero]
    | succ m =>
      cases f2 with
      | zero => exact absurd h2 (by omega)
      | succ f2 =>
        show pat.take (m + 1) ++ fillChunksGo pat f1 (m + 1 - pat.length)
          = pat.take (m + 1) ++ fillChunksGo pat f2 (m + 1 - pat.length)
        congr 1
        exact ih f2 (m + 1 - pat.length)
          (by omega) (by have := Nat.pos_of_ne_zero hp; omega)

theorem fillChunks_zero (pat : List Nat) : fillChunks pat 0 = [] := by
  rw [fillChunks]
  by_cases h : pat.length = 0
  · rw [if_pos h]
  · rw [if_neg h, fillChunksGo_zero]

theorem fillChunks_succ (pat : List Nat) (n : Nat) (hp : pat.length ≠ 0)
    (hn : n ≠ 0) :
    fillChunks pat n = pat.take n ++ fillChunks pat (n - pat.length) := by
  rw [fillChunks, fillChunks, if_neg hp, if_neg hp]
  obtain ⟨m, rfl⟩ : ∃ m, n = m + 1 := ⟨n - 1, by omega⟩
  show pat.take (m + 1) ++ fillChunksGo pat m (m + 1 - pat.length) = _
  congr 1
  exact fillChunksGo_fuel pat hp m (m + 1 - pat.length) (m + 1 - pat.length)
    (by have := Nat.pos_of_ne_zero hp; omega) le_rfl

theorem fillChunks_length (pat : List Nat) (hp : pat.length ≠ 0) :
    ∀ n, (fillChunks pat n).length = n := by
  intro n
  induction n using Nat.strong_induction_on with
  | _ n ih =>
    by_cases hn : n = 0
    · subst hn; rw [fillChunks_zero]; rfl
    · rw [fillChunks_succ pat n hp hn]
      have hrec := ih (n - pat.length)
        (Nat.sub_lt (Nat.pos_of_ne_zero hn) (Nat.pos_of_ne_zero hp))
      simp only [List.length_append, List.length_take, hrec]
      omega

theorem fill_buffer_length (p : WipePattern) (rng : Nat → Nat)
    (buffer out : List Nat) (h : fill_buffer p rng buffer = some out) :
    out.length = buffer.length := by
  cases p with
  | zeros => simp only [fill_buffer, Option.some.injEq] at h
             subst h; simp
  | ones => simp only [fill_buffer, Option.some.injEq] at h
            subst h; simp
  | random => simp only [fill_buffer, Option.some.injEq] at h
              subst h; simp
  | custom pat =>
    simp only [fill_buffer] at h
    by_cases hp : pat.length = 0
    · rw [if_pos hp] at h; cases h
    · rw [if_neg hp] at h
      cases h
      exact fillChunks_length pat hp buffer.length

theorem list_eq_range_map_getD (l : List Nat) :
    l = (List.range l.length).map (fun i => l.getD i 0) := by
  apply List.ext_getElem
  · simp
  · intro i h1 h2
    simp only [List.getElem_map, List.getElem_range]
    exact (List.getD_eq_getElem l 0 h1).symm

theorem take_eq_range_map_getD (l : List Nat) (n : Nat) (hn : n ≤ l.length) :
    l.take n = (List.range n).map (fun i => l.getD i 0) := by
  apply List.ext_getElem
  · simp [hn]
  · intro i h1 h2
    simp only [List.getElem_map, List.getElem_range, List.getElem_take]
    have h3 : i < l.length := by
      simp only [List.length_take] at h1
      omega
    exact (List.getD_eq_getElem l 0 h3).symm

theorem fillChunks_eq_tiled (pat : List Nat) (hp : pat.length ≠ 0) :
    ∀ n, fillChunks pat n =
      (List.range n).map (fun i => pat.getD (i % pat.length) 0) := by
  intro n
  induction n using Nat.strong_induction_on with
  | _ n ih =>
    by_cases hn : n = 0
    · subst hn; rw [fillChunks_zero]; rfl
    · rw [fillChunks_succ pat n hp hn]
      by_cases hnp : n ≤ pat.length
      · have h0 : n - pat.length = 0 := Nat.sub_eq_zero_of_le hnp
        rw [h0, fillChunks_zero, List.append_nil]
        rw [take_eq_range_map_getD pat n hnp]
        apply List.map_congr_left
        intro i hi
        rw [List.mem_range] at hi
        rw [Nat.mod_eq_of_lt (lt_of_lt_of_le hi hnp)]
      · push_neg at hnp
        have hsplit : n = pat.length + (n - pat.length) := by omega
        rw [List.take_of_length_le (le_of_lt hnp)]
        conv_rhs => rw [hsplit, List.range_add, List.map_append]
        congr 1
        · conv_lhs => rw [list_eq_range_map_getD pat]
          apply List.map_congr_left
          intro i hi
          rw [List.mem_range] at hi
          rw [Nat.mod_eq_of_lt hi]
        · rw [ih (n - pat.length) (by omega), List.map_map]
          apply List.map_congr_left
          intro i _
          simp only [Function.comp_apply]
          rw [Nat.add_mod_left]

theorem verifyChunksGo_nil (pat : List Nat) (fuel : Nat) :
    verifyChunksGo pat fuel [] = true := by
  cases fuel <;> rfl

theorem verifyChunksGo_fuel (pat : List Nat) (hp : pat.length ≠ 0) :
    ∀ f1 f2 (buffer : List Nat), buffer.length ≤ f1 → buffer.length ≤ f2 →
      verifyChunksGo pat f1 buffer = verifyChunksGo pat f2 buffer := by
  intro f1
  induction f1 with
  | zero =>
    intro f2 buffer h1 _
    have : buffer = [] := by
      cases buffer with
      | nil => rfl
      | cons b bs => exact absurd h1 (by simp)
    subst this
    rw [verifyChunksGo_nil, verifyChunksGo_nil]
  | succ f1 ih =>
    intro f2 buffer h1 h2
    cases buffer with
    | nil => rw [verifyChunksGo_nil, verifyChunksGo_nil]
    | cons b bs =>
      cases f2 with
      | zero => exact absurd h2 (by simp)
      | succ f2 =>
        show (_ && verifyChunksGo pat f1 ((b :: bs).drop pat.length))
          = (_ && verifyChunksGo pat f2 ((b :: bs).drop pat.length))
        congr 1
        apply ih f2
        · simp only [List.length_drop, List.length_cons] at h1 ⊢
          omega
        · simp only [List.length_drop, List.length_cons] at h2 ⊢
          have := Nat.pos_of_ne_zero hp
          omega

theorem verifyChunks_nil (pat : List Nat) : verifyChunks pat [] = true := by
  rw [verifyChunks]
  by_cases h : pat.length = 0
  · rw [if_pos h]
  · rw [if_neg h, verifyChunksGo_nil]

theorem verifyChunks_unfold (pat buffer : List Nat) (hb : buffer.length ≠ 0)
    (hp : pat.length ≠ 0) :
    verifyChunks pat buffer =
      ((buffer.take pat.length == pat.take (buffer.take pat.length).length)
        && verifyChunks pat (buffer.drop pat.length)) := by
  rw [verifyChunks, verifyChunks, if_neg hp, if_neg hp]
  obtain ⟨b, bs, rfl⟩ : ∃ b bs, buffer = b :: bs := by
    cases buffer with
    | nil => exact absurd rfl hb
    | cons b bs => exact ⟨b, bs, rfl⟩
  show (_ && verifyChunksGo pat (bs.length) ((b :: bs).drop pat.length)) = _
  congr 1
  apply verifyChunksGo_fuel pat hp
  · simp only [List.length_drop, List.length_cons]
    have := Nat.pos_of_ne_zero hp
    omega
  · exact le_rfl

theorem verifyChunks_iff (pat : List Nat) (hp : pat.length ≠ 0) :
    ∀ buffer : List Nat,
      (verifyChunks pat buffer = true ↔ buffer = fillChunks pat buffer.length) := by
  suffices h : ∀ n (buffer : List Nat), buffer.length = n →
      (verifyChunks pat buffer = true ↔ buffer = fillChunks pat buffer.length) by
    intro buffer; exact h buffer.length buffer rfl
  intro n
  induction n using Nat.strong_induction_on with
  | _ n ih =>
    intro buffer hn
    by_cases hb : buffer.length = 0
    · have hnil : buffer = [] := List.length_eq_zero.mp hb
      subst hnil
      simp [verifyChunks_nil, fillChunks_zero]
    · rw [verifyChunks_unfold pat buffer hb hp,
         fillChunks_succ pat buffer.length hp hb]
      by_cases hnp : buffer.length ≤ pat.length
      · have hdrop : buffer.drop pat.length = [] := by
          rw [List.drop_eq_nil_iff]; exact hnp
        have htake : buffer.take pat.length = buffer :=
          List.take_of_length_le hnp
        have h0 : buffer.length - pat.length = 0 := Nat.sub_eq_zero_of_le hnp
        rw [htake, hdrop, verifyChunks_nil, Bool.and_true, h0, fillChunks_zero,
          List.append_nil, beq_iff_eq]
      · push_neg at hnp
        have htl : (buffer.take pat.length).length = pat.length := by
          simp only [List.length_take]
          omega
        rw [htl, List.take_length, Bool.and_eq_true, beq_iff_eq]
        have hrec := ih (buffer.length - pat.length) (by omega)
          (buffer.drop pat.length) (by simp)
        rw [hrec, List.take_of_length_le (le_of_lt hnp)]
        have hdl : (buffer.drop pat.length).length = buffer.length - pat.length := by
          simp
        rw [hdl]
        constructor
        · rintro ⟨h1, h2⟩
          conv_lhs => rw [← List.take_append_drop pat.length buffer]
          rw [h1, h2]
        · intro h
          constructor
          · rw [h]
            exact List.take_left pat _
          · conv_lhs => rw [h]
            exact List.drop_left pat _

theorem verifyChunks_fillChunks (pat : List Nat) (hp : pat.length ≠ 0)
    (n : Nat) : verifyChunks pat (fillChunks pat n) = true := by
  rw [verifyChunks_iff pat hp, fillChunks_length pat hp n]

theorem all_beq_iff_replicate (l : List Nat) (a : Nat) :
    (l.all (· == a) = true) ↔ l = List.replicate l.length a := by
  rw [List.all_eq_true, List.eq_replicate_iff]
  simp

/-! ## Claim C4: legacy pattern sequences -/

/-- Claim C4: `LegacyStandard::get_patterns` returns exactly
[Zeros, Ones, Random] for Dod522022M, exactly the 7-pass
[Zeros, Ones, Zeros, Ones, Zeros, Ones, Random] for VsitrStandard, and for
Gutmann exactly 35 passes: 4 Random passes, the 27 fixed three-byte patterns
of the documented Gutmann table in order, then 4 trailing Random passes. -/
theorem legacy_get_patterns_spec :
    LegacyStandard.get_patterns .dod522022M = [.zeros, .ones, .random]
    ∧ LegacyStandard.get_patterns .vsitrStandard =
        [.zeros, .ones, .zeros, .ones, .zeros, .ones, .random]
    ∧ (LegacyStandard.get_patterns .gutmann).length = 35
    ∧ LegacyStandard.get_patterns .gutmann =
        List.replicate 4 .random ++ gutmannTableClaim.map WipePattern.custom
          ++ List.replicate 4 .random
    ∧ gutmannTableClaim.length = 27
    ∧ ∀ bs ∈ gutmannTableClaim, bs.length = 3 := by
  refine ⟨rfl, rfl, by decide, by decide, rfl, by decide⟩

/-! ## Claim C9: secure-erase capability query -/

/-- Claim C9: `StorageType::supports_secure_erase` returns the
`supports_secure_erase` capability flag for Hdd and Ssd, and `false` for every
Flash variant regardless of its flags (including when the flag is set). -/
theorem storage_supports_secure_erase_spec (caps : StorageCapabilities) :
    (StorageType.hdd caps).supports_secure_erase = caps.supports_secure_erase
    ∧ (StorageType.ssd caps).supports_secure_erase = caps.supports_secure_erase
    ∧ (StorageType.flash caps).supports_secure_erase = false :=
  ⟨rfl, rfl, rfl⟩

/-! ## Claim C10: totality of the pattern operations -/

/-- Claim C10: under the invariant that a Custom pattern's byte sequence is
non-empty, `fill_buffer` and `verify_buffer` are total (no panic, no error
condition) for every pattern and buffer length; and the precondition is
necessary — on `Custom([])` both operations panic (`chunks(0)`/`chunks_mut(0)`,
modelled as `none`), and no constructor prevents building such a pattern. -/
theorem pattern_ops_total (p : WipePattern) (rng : Nat → Nat) (buffer : List Nat) :
    ((∀ bs, p = WipePattern.custom bs → bs ≠ []) →
        (fill_buffer p rng buffer).isSome ∧ (verify_buffer p buffer).isSome)
    ∧ fill_buffer (.custom []) rng buffer = Option.none
    ∧ verify_buffer (.custom []) buffer = Option.none := by
  refine ⟨?_, rfl, rfl⟩
  intro hns
  cases p with
  | zeros => exact ⟨rfl, rfl⟩
  | ones => exact ⟨rfl, rfl⟩
  | random => exact ⟨rfl, rfl⟩
  | custom pat =>
    have hp : pat.length ≠ 0 := by
      intro h0
      exact hns pat rfl (List.length_eq_zero.mp h0)
    have hpe : pat ≠ [] := fun h => hp (by rw [h]; rfl)
    constructor
    · simp [fill_buffer, hpe]
    · simp [verify_buffer, hpe]

/-- Witness for C10 at a concrete non-empty custom pattern. -/
theorem pattern_ops_total_witness :
    (fill_buffer (.custom [0x55]) (fun _ => 0) [1, 2]).isSome
    ∧ (verify_buffer (.custom [0x55]) [1, 2]).isSome :=
  (pattern_ops_total (.custom [0x55]) (fun _ => 0) [1, 2]).1
    (by intro bs h; cases h; decide)

/-! ## Claim C7: fill/verify roundtrip and verification semantics -/

/-- Claim C7: for every pattern with a non-empty Custom byte sequence and
every buffer length, filling then verifying succeeds; `verify_buffer` on
Random is true on every buffer by definition; and for Zeros, Ones and
non-empty Custom, `verify_buffer` is true iff every byte of the buffer
matches the tiled pattern (the buffer equals the pattern tiled to its
length). -/
theorem fill_then_verify (p : WipePattern) (rng : Nat → Nat)
    (buffer out : List Nat) :
    ((∀ bs, p = WipePattern.custom bs → bs ≠ []) →
        fill_buffer p rng buffer = some out → verify_buffer p out = some true)
    ∧ verify_buffer .random buffer = some true
    ∧ ((p = .zeros ∨ p = .ones ∨ ∃ bs, p = .custom bs ∧ bs ≠ []) →
        (verify_buffer p buffer = some true ↔ buffer = tiledSpec p buffer.length)) := by
  refine ⟨?_, rfl, ?_⟩
  · intro hns hf
    cases p with
    | zeros =>
      simp only [fill_buffer, Option.some.injEq] at hf
      subst hf
      simp [verify_buffer]
    | ones =>
      simp only [fill_buffer, Option.some.injEq] at hf
      subst hf
      simp [verify_buffer]
    | random => rfl
    | custom pat =>
      have hp : pat.length ≠ 0 := by
        intro h0
        exact hns pat rfl (List.length_eq_zero.mp h0)
      simp only [fill_buffer, if_neg hp, Option.some.injEq] at hf
      subst hf
      simp only [verify_buffer, if_neg hp, Option.some.injEq]
      exact verifyChunks_fillChunks pat hp buffer.length
  · rintro (rfl | rfl | ⟨bs, rfl, hbs⟩)
    · simp only [verify_buffer, Option.some.injEq, tiledSpec]
      exact all_beq_iff_replicate buffer 0x00
    · simp only [verify_buffer, Option.some.injEq, tiledSpec]
      exact all_beq_iff_replicate buffer 0xFF
    · have hp : bs.length ≠ 0 := by
        intro h0
        exact hbs (List.length_eq_zero.mp h0)
      simp only [verify_buffer, if_neg hp, Option.some.injEq, tiledSpec]
      rw [verifyChunks_iff bs hp buffer, fillChunks_eq_tiled bs hp buffer.length]

/-- Witness for C7: fill then verify at a concrete two-byte custom pattern
and an odd buffer length. -/
theorem fill_then_verify_witness :
    verify_buffer (WipePattern.custom [0xAA, 0x55]) [0xAA, 0x55, 0xAA] = some true :=
  (fill_then_verify (.custom [0xAA, 0x55]) (fun _ => 0) [1, 2, 3]
      [0xAA, 0x55, 0xAA]).1
    (by intro bs h; cases h; decide) (by decide)

/-! ## Helper lemmas: Basic verification sampling -/

theorem verifyBasicGo_maxoff_zero (pattern content : List Nat) (rng : Nat → Nat)
    (h : content.length - pattern.length = 0) (i k : Nat) :
    verifyBasicGo pattern content rng i k = ([], .ok ()) := by
  cases k with
  | zero => rfl
  | succ k => simp [verifyBasicGo, h]

theorem verifyBasicGo_ok_iff (pattern content : List Nat) (rng : Nat → Nat)
    (hlt : pattern.length < content.length) :
    ∀ k i, ((verifyBasicGo pattern content rng i k).2 = .ok () ↔
      ∀ j < k, (content.drop (rng (i + j) % (content.length - pattern.length))).take
        pattern.length = pattern) := by
  have hmo : content.length - pattern.length ≠ 0 := by omega
  intro k
  induction k with
  | zero =>
    intro i
    simp [verifyBasicGo]
  | succ k ih =>
    intro i
    by_cases hs : (content.drop (rng i % (content.length - pattern.length))).take
        pattern.length = pattern
    · simp only [verifyBasicGo, if_neg hmo, if_pos hs]
      rw [ih (i + 1)]
      constructor
      · intro h j hj
        cases j with
        | zero => simpa using hs
        | succ j =>
          have e : i + (j + 1) = i + 1 + j := by omega
          rw [e]
          exact h j (by omega)
      · intro h j hj
        have e : i + 1 + j = i + (j + 1) := by omega
        rw [e]
        exact h (j + 1) (by omega)
    · simp only [verifyBasicGo, if_neg hmo, if_neg hs]
      constructor
      · intro habs
        exact absurd habs (by simp)
      · intro h
        exact absurd (by simpa using h 0 (by omega)) hs

theorem verifyBasicGo_offsets_lt (pattern content : List Nat) (rng : Nat → Nat)
    (hlt : pattern.length < content.length) :
    ∀ k i o, o ∈ (verifyBasicGo pattern content rng i k).1 →
      o < content.length - pattern.length := by
  have hmo : content.length - pattern.length ≠ 0 := by omega
  intro k
  induction k with
  | zero =>
    intro i o ho
    simp [verifyBasicGo] at ho
  | succ k ih =>
    intro i o ho
    by_cases hs : (content.drop (rng i % (content.length - pattern.length))).take
        pattern.length = pattern
    · simp only [verifyBasicGo, if_neg hmo, if_pos hs, List.mem_cons] at ho
      rcases ho with rfl | ho
      · exact Nat.mod_lt _ (Nat.pos_of_ne_zero hmo)
      · exact ih (i + 1) o ho
    · simp only [verifyBasicGo, if_neg hmo, if_neg hs, List.mem_singleton] at ho
      subst ho
      exact Nat.mod_lt _ (Nat.pos_of_ne_zero hmo)

theorem verifyBasicGo_offsets_ok (pattern content : List Nat) (rng : Nat → Nat)
    (hlt : pattern.length < content.length) :
    ∀ k i, (verifyBasicGo pattern content rng i k).2 = .ok () →
      (verifyBasicGo pattern content rng i k).1 =
        (List.range k).map (fun j => rng (i + j) % (content.length - pattern.length)) := by
  have hmo : content.length - pattern.length ≠ 0 := by omega
  intro k
  induction k with
  | zero =>
    intro i _
    simp [verifyBasicGo]
  | succ k ih =>
    intro i hok
    by_cases hs : (content.drop (rng i % (content.length - pattern.length))).take
        pattern.length = pattern
    · simp only [verifyBasicGo, if_neg hmo, if_pos hs] at hok ⊢
      rw [List.range_succ_eq_map, List.map_cons, List.map_map]
      congr 1
      rw [ih (i + 1) hok]
      apply List.map_congr_left
      intro j _
      simp only [Function.comp_apply]
      have e : i + 1 + j = i + (j + 1) := by omega
      rw [e]
    · simp only [verifyBasicGo, if_neg hmo, if_neg hs] at hok
      exact absurd hok (by simp)

theorem verifyBasicGo_error (pattern content : List Nat) (rng : Nat → Nat)
    (hlt : pattern.length < content.length) :
    ∀ k i e, (verifyBasicGo pattern content rng i k).2 = .error e →
      ∃ o ∈ (verifyBasicGo pattern content rng i k).1,
        e = .verificationFailed (some o)
        ∧ (content.drop o).take pattern.length ≠ pattern := by
  have hmo : content.length - pattern.length ≠ 0 := by omega
  intro k
  induction k with
  | zero =>
    intro i e he
    exact absurd he (by simp [verifyBasicGo])
  | succ k ih =>
    intro i e he
    by_cases hs : (content.drop (rng i % (content.length - pattern.length))).take
        pattern.length = pattern
    · simp only [verifyBasicGo, if_neg hmo, if_pos hs] at he ⊢
      obtain ⟨o, ho, he2, hne⟩ := ih (i + 1) e he
      exact ⟨o, List.mem_cons_of_mem _ ho, he2, hne⟩
    · simp only [verifyBasicGo, if_neg hmo, if_neg hs] at he ⊢
      refine ⟨rng i % (content.length - pattern.length), by simp, ?_, hs⟩
      cases he
      rfl

/-! ## Claim C6: Basic verification sampling -/

/-- Claim C6 counterexample: the claim asserts every Basic sample is taken at
a pattern-aligned offset (a multiple of the expected pattern's length).  On a
103-byte file of zeros with a 2-byte expected pattern, a run whose random
draw is 1 samples offset `1 % 101 = 1`, which is not a multiple of 2 — the
code draws `random::<u64>() % max_offset` with no alignment. -/
theorem basic_verification_alignment_counterexample :
    sampledOffsets [0, 0] (List.replicate 103 0) (fun _ => 1) = [1]
    ∧ 1 % 2 ≠ 0 := by
  constructor
  · rfl
  · decide

/-- Claim C6 (amended): Basic verification on a non-empty file strictly larger
than one pattern length reads `max(file_size / 100, 1)` samples, each at the
random offset `rng j % (file_size - pattern_length)` — an arbitrary offset
below `file_size - pattern_length`, not necessarily pattern-aligned — compares
each sample byte-for-byte against the expected pattern, succeeds iff every
sample matches, and on a mismatch returns a VerificationFailed error naming
the mismatching sample's offset; when the file is not larger than one pattern
length it degrades to zero samples and reports success, and an empty file
reports success. -/
theorem basic_verification_spec (pattern content : List Nat) (rng : Nat → Nat) :
    (content = [] →
      verify_basic pattern content rng = .ok ()
      ∧ sampledOffsets pattern content rng = [])
    ∧ (content ≠ [] → content.length ≤ pattern.length →
      verify_basic pattern content rng = .ok ()
      ∧ sampledOffsets pattern content rng = [])
    ∧ (pattern.length < content.length →
      (verify_basic pattern content rng = .ok () ↔
        ∀ j < max (content.length / 100) 1,
          (content.drop (rng j % (content.length - pattern.length))).take
            pattern.length = pattern)
      ∧ (∀ o ∈ sampledOffsets pattern content rng,
          o < content.length - pattern.length)
      ∧ (verify_basic pattern content rng = .ok () →
          sampledOffsets pattern content rng =
            (List.range (max (content.length / 100) 1)).map
              (fun j => rng j % (content.length - pattern.length)))
      ∧ (∀ e, verify_basic pattern content rng = .error e →
          ∃ o ∈ sampledOffsets pattern content rng,
            e = .verificationFailed (some o)
            ∧ (content.drop o).take pattern.length ≠ pattern)) := by
  refine ⟨?_, ?_, ?_⟩
  · intro hc
    subst hc
    exact ⟨rfl, rfl⟩
  · intro hne hle
    have hlen : content.length ≠ 0 := by
      intro h0
      exact hne (List.length_eq_zero.mp h0)
    have hmo : content.length - pattern.length = 0 := by omega
    constructor
    · rw [verify_basic, if_neg hlen, verifyBasicGo_maxoff_zero pattern content rng hmo]
    · rw [sampledOffsets, if_neg hlen, verifyBasicGo_maxoff_zero pattern content rng hmo]
  · intro hlt
    have hlen : content.length ≠ 0 := by omega
    refine ⟨?_, ?_, ?_, ?_⟩
    · rw [verify_basic, if_neg hlen]
      have h := verifyBasicGo_ok_iff pattern content rng hlt
        (max (content.length / 100) 1) 0
      simpa using h
    · intro o ho
      rw [sampledOffsets, if_neg hlen] at ho
      exact verifyBasicGo_offsets_lt pattern content rng hlt _ 0 o ho
    · intro hok
      rw [verify_basic, if_neg hlen] at hok
      rw [sampledOffsets, if_neg hlen]
      have h := verifyBasicGo_offsets_ok pattern content rng hlt
        (max (content.length / 100) 1) 0 hok
      simpa using h
    · intro e he
      rw [verify_basic, if_neg hlen] at he
      rw [sampledOffsets, if_neg hlen]
      exact verifyBasicGo_error pattern content rng hlt _ 0 e he

/-- Witness for the amended C6 at a concrete input exercising the degradation
branch: a 1-byte file with a 2-byte expected pattern yields zero samples and
success. -/
theorem basic_verification_spec_witness :
    verify_basic [0, 0] [5] (fun _ => 1) = .ok ()
    ∧ sampledOffsets [0, 0] [5] (fun _ => 1) = [] :=
  (basic_verification_spec [0, 0] [5] (fun _ => 1)).2.1 (by decide) (by decide)

/-! ## Helper lemmas: full-scan verification -/

theorem verifyFullLoop_ok_iff (pattern : List Nat) (hp : pattern.length ≠ 0) :
    ∀ fuel (rest : List Nat), rest.length ≤ fuel →
      (verifyFullLoop pattern fuel rest = some (.ok ()) ↔
        ∀ i, (i + 1) * pattern.length ≤ rest.length →
          (rest.drop (i * pattern.length)).take pattern.length = pattern) := by
  intro fuel
  induction fuel with
  | zero =>
    intro rest hf
    have hnil : rest.length = 0 := by omega
    have hlt : rest.length < pattern.length := by
      have := Nat.pos_of_ne_zero hp
      omega
    rw [verifyFullLoop, if_pos hlt]
    constructor
    · intro _ i hi
      have : pattern.length ≤ (i + 1) * pattern.length := by
        calc pattern.length = 1 * pattern.length := by ring
          _ ≤ (i + 1) * pattern.length := by
              exact Nat.mul_le_mul_right _ (by omega)
      omega
    · intro _; rfl
  | succ fuel ih =>
    intro rest hf
    by_cases hlt : rest.length < pattern.length
    · rw [verifyFullLoop, if_pos hlt]
      constructor
      · intro _ i hi
        have : pattern.length ≤ (i + 1) * pattern.length := by
          calc pattern.length = 1 * pattern.length := by ring
            _ ≤ (i + 1) * pattern.length := by
                exact Nat.mul_le_mul_right _ (by omega)
        omega
      · intro _; rfl
    · push_neg at hlt
      by_cases htake : rest.take pattern.length = pattern
      · rw [verifyFullLoop, if_neg (by omega)]
        simp only [if_pos htake]
        have hd : (rest.drop pattern.length).length ≤ fuel := by
          simp only [List.length_drop]
          have := Nat.pos_of_ne_zero hp
          omega
        rw [ih (rest.drop pattern.length) hd]
        constructor
        · intro h i hi
          cases i with
          | zero => simpa using htake
          | succ i =>
            have harith : (i + 1) * pattern.length ≤ (rest.drop pattern.length).length := by
              simp only [List.length_drop]
              have : (i + 1 + 1) * pattern.length
                  = (i + 1) * pattern.length + pattern.length := by ring
              omega
            have h2 := h i harith
            rw [List.drop_drop] at h2
            have e : pattern.length + i * pattern.length = (i + 1) * pattern.length := by
              ring
            rw [e] at h2
            exact h2
        · intro h i hi
          rw [List.drop_drop]
          have e : pattern.length + i * pattern.length = (i + 1) * pattern.length := by
            ring
          rw [e]
          apply h (i + 1)
          simp only [List.length_drop] at hi
          have : (i + 1 + 1) * pattern.length
              = (i + 1) * pattern.length + pattern.length := by ring
          omega
      · rw [verifyFullLoop, if_neg (by omega)]
        simp only [if_neg htake]
        constructor
        · intro habs
          exact absurd habs (by simp)
        · intro h
          exfalso
          apply htake
          have h0 := h 0 (by simpa using hlt)
          simpa using h0

/-! ## Claim C8: Full and Enhanced verification have identical semantics -/

/-- Claim C8: verification at level Full and at level Enhanced are the same
single-pass scan (the code handles them in one match arm): one sequential
scan from offset 0 comparing every pattern-length block against the expected
pattern, succeeding iff every scanned block matches, with an empty file
verifying trivially. -/
theorem full_enhanced_equiv (pattern content : List Nat) (rng rng2 : Nat → Nat) :
    verify_wiping .full pattern content rng
        = verify_wiping .enhanced pattern content rng2
    ∧ (content = [] → verify_wiping .full pattern content rng = some (.ok ()))
    ∧ (pattern.length ≠ 0 →
        (verify_wiping .full pattern content rng = some (.ok ()) ↔
          ∀ i, (i + 1) * pattern.length ≤ content.length →
            (content.drop (i * pattern.length)).take pattern.length = pattern)) := by
  refine ⟨rfl, ?_, ?_⟩
  · intro hc
    subst hc
    rfl
  · intro hp
    show (if content.length = 0 then some (.ok ())
          else verifyFullLoop pattern (content.length + 1) content) = _ ↔ _
    by_cases hc : content.length = 0
    · rw [if_pos hc]
      constructor
      · intro _ i hi
        have : pattern.length ≤ (i + 1) * pattern.length := by
          calc pattern.length = 1 * pattern.length := by ring
            _ ≤ (i + 1) * pattern.length := by
                exact Nat.mul_le_mul_right _ (by omega)
        have := Nat.pos_of_ne_zero hp
        omega
      · intro _; rfl
    · rw [if_neg hc]
      exact verifyFullLoop_ok_iff pattern hp (content.length + 1) content (by omega)

/-- Witness for C8: the empty-file case and the Full/Enhanced agreement at a
concrete file. -/
theorem full_enhanced_equiv_witness :
    verify_wiping .full [7] [] (fun _ => 0) = some (.ok ())
    ∧ verify_wiping .full [7] [7, 7] (fun _ => 0)
        = verify_wiping .enhanced [7] [7, 7] (fun _ => 1) :=
  ⟨(full_enhanced_equiv [7] [] (fun _ => 0) (fun _ => 0)).2.1 rfl,
   (full_enhanced_equiv [7] [7, 7] (fun _ => 0) (fun _ => 1)).1⟩

/-! ## Helper lemmas: the overwrite loop -/

theorem take_append_len (A B : List Nat) (k : Nat) :
    (A ++ B).take (A.length + k) = A ++ B.take k := by
  rw [List.take_append_eq_append_take, List.take_of_length_le (by omega)]
  congr 1
  have e : A.length + k - A.length = k := by omega
  rw [e]

theorem drop_append_len (A B : List Nat) (k : Nat) :
    (A ++ B).drop (A.length + k) = B.drop k := by
  rw [List.drop_append_eq_append_drop, List.drop_eq_nil_iff.mpr (by omega)]
  have e : A.length + k - A.length = k := by omega
  rw [e, List.nil_append]

theorem writeSlice_length (content : List Nat) (off : Nat) (bytes : List Nat)
    (h : off + bytes.length ≤ content.length) :
    (writeSlice content off bytes).length = content.length := by
  simp only [writeSlice, List.length_append, List.length_take, List.length_drop]
  omega

theorem writeSlice_readBack (content : List Nat) (off : Nat) (bytes : List Nat)
    (h : off ≤ content.length) :
    ((writeSlice content off bytes).drop off).take bytes.length = bytes := by
  rw [writeSlice, List.append_assoc]
  have hlen : (content.take off).length = off := by
    simp only [List.length_take]
    omega
  rw [List.drop_left' hlen, List.take_left' rfl]

theorem writeSlice_take_prefix (content : List Nat) (off : Nat) (bytes : List Nat)
    (h : off ≤ content.length) :
    (writeSlice content off bytes).take (off + bytes.length)
      = content.take off ++ bytes := by
  rw [writeSlice]
  apply List.take_left'
  simp only [List.length_append, List.length_take]
  omega

theorem writeSlice_drop_tail (content : List Nat) (off : Nat) (bytes : List Nat)
    (m : Nat) (h : off + bytes.length ≤ m) (h2 : off ≤ content.length) :
    (writeSlice content off bytes).drop m = content.drop m := by
  rw [writeSlice, List.drop_append_eq_append_drop]
  have hab : (content.take off ++ bytes).length = off + bytes.length := by
    simp only [List.length_append, List.length_take]
    omega
  rw [List.drop_eq_nil_iff.mpr (by rw [hab]; omega), List.nil_append,
    List.drop_drop, hab]
  congr 1
  omega

theorem passBytes_zero (bufSize : Nat) (pattern : List Nat) :
    passBytes bufSize pattern 0 = [] := by
  rw [passBytes]
  by_cases h : bufSize = 0
  · rw [dif_pos h]
  · rw [dif_neg h, dif_pos rfl]

theorem passBytes_succ (bufSize : Nat) (pattern : List Nat) (n : Nat)
    (hb : bufSize ≠ 0) (hn : n ≠ 0) :
    passBytes bufSize pattern n
      = (fillChunks pattern bufSize).take (min n bufSize)
          ++ passBytes bufSize pattern (n - min n bufSize) := by
  rw [passBytes, dif_neg hb, dif_neg hn]

theorem passBytes_length (bufSize : Nat) (pattern : List Nat)
    (hb : bufSize ≠ 0) (hp : pattern.length ≠ 0) :
    ∀ n, (passBytes bufSize pattern n).length = n := by
  intro n
  induction n using Nat.strong_induction_on with
  | _ n ih =>
    by_cases hn : n = 0
    · subst hn; rw [passBytes_zero]; rfl
    · rw [passBytes_succ bufSize pattern n hb hn]
      have hws : 1 ≤ min n bufSize := le_min (by omega) (by omega)
      have hrec := ih (n - min n bufSize) (by omega)
      simp only [List.length_append, List.length_take, hrec,
        fillChunks_length pattern hp]
      omega

theorem overwriteLoop_done (bufSize : Nat) (pattern : List Nat)
    (corrupt : Nat → List Nat → List Nat) (fileSize fuel written : Nat)
    (content : List Nat) (h : ¬ written < fileSize) :
    overwriteLoop bufSize pattern corrupt fileSize fuel written content
      = some (.ok content) := by
  rw [overwriteLoop.eq_def]
  simp only [if_neg h]

theorem overwriteLoop_honest (bufSize : Nat) (pattern : List Nat)
    (corrupt : Nat → List Nat → List Nat) (fileSize : Nat)
    (hb : bufSize ≠ 0) (hp : pattern.length ≠ 0)
    (hcor : ∀ o b, corrupt o b = b) :
    ∀ fuel written content, written ≤ fileSize → fileSize ≤ content.length →
      fileSize - written ≤ fuel →
      overwriteLoop bufSize pattern corrupt fileSize fuel written content
        = some (.ok (content.take written
            ++ passBytes bufSize pattern (fileSize - written)
            ++ content.drop fileSize)) := by
  intro fuel
  induction fuel with
  | zero =>
    intro written content h1 h2 h3
    have hw : written = fileSize := by omega
    subst hw
    rw [overwriteLoop_done bufSize pattern corrupt written 0 written content
      (lt_irrefl written)]
    rw [Nat.sub_self, passBytes_zero, List.append_nil, List.take_append_drop]
  | succ fuel ih =>
    intro written content h1 h2 h3
    by_cases hlt : written < fileSize
    · rw [overwriteLoop.eq_def]
      simp only [if_pos hlt, if_neg hp, hcor]
      have hwsle : min (fileSize - written) bufSize ≤ bufSize := min_le_right _ _
      have hws1 : 1 ≤ min (fileSize - written) bufSize :=
        le_min (by omega) (by omega)
      have hint_len :
          ((fillChunks pattern bufSize).take (min (fileSize - written) bufSize)).length
            = min (fileSize - written) bufSize := by
        rw [List.length_take, fillChunks_length pattern hp]
        omega
      have hread := writeSlice_readBack content written
        ((fillChunks pattern bufSize).take (min (fileSize - written) bufSize))
        (by omega)
      rw [hint_len] at hread
      rw [if_pos hread]
      have hlen2 : (writeSlice content written
          ((fillChunks pattern bufSize).take (min (fileSize - written) bufSize))).length
            = content.length := by
        apply writeSlice_length
        rw [hint_len]
        omega
      rw [ih (written + min (fileSize - written) bufSize) _
        (by omega) (by rw [hlen2]; omega) (by omega)]
      have htp := writeSlice_take_prefix content written
        ((fillChunks pattern bufSize).take (min (fileSize - written) bufSize))
        (by omega)
      rw [hint_len] at htp
      have hdt := writeSlice_drop_tail content written
        ((fillChunks pattern bufSize).take (min (fileSize - written) bufSize))
        fileSize (by rw [hint_len]; omega) (by omega)
      have e : fileSize - (written + min (fileSize - written) bufSize)
          = fileSize - written - min (fileSize - written) bufSize := by omega
      rw [htp, hdt, e,
        passBytes_succ bufSize pattern (fileSize - written) hb (by omega)]
      simp [List.append_assoc]
    · rw [overwriteLoop_done bufSize pattern corrupt fileSize (fuel + 1) written
        content hlt]
      have hw : written = fileSize := by omega
      subst hw
      rw [Nat.sub_self, passBytes_zero, List.append_nil, List.take_append_drop]

theorem overwriteLoop_error (bufSize : Nat) (pattern : List Nat)
    (corrupt : Nat → List Nat → List Nat) (fileSize : Nat) (hb : bufSize ≠ 0) :
    ∀ fuel written content e, written % bufSize = 0 →
      overwriteLoop bufSize pattern corrupt fileSize fuel written content
        = some (.error e) →
      ∃ w, e = .verificationFailed (some w) ∧ w < fileSize ∧ w % bufSize = 0 := by
  intro fuel
  induction fuel with
  | zero =>
    intro written content e hmod he
    by_cases hlt : written < fileSize
    · rw [overwriteLoop.eq_def] at he
      simp only [if_pos hlt] at he
      exact Option.noConfusion he
    · rw [overwriteLoop_done bufSize pattern corrupt fileSize 0 written content hlt] at he
      exact absurd he (by simp)
  | succ fuel ih =>
    intro written content e hmod he
    by_cases hlt : written < fileSize
    · rw [overwriteLoop.eq_def] at he
      simp only [if_pos hlt] at he
      by_cases hp0 : pattern.length = 0
      · simp only [if_pos hp0] at he
        exact Option.noConfusion he
      · simp only [if_neg hp0] at he
        split at he
        · -- readback matched: the error comes from a later chunk
          by_cases hend : written + min (fileSize - written) bufSize < fileSize
          · have hws : min (fileSize - written) bufSize = bufSize := by omega
            refine ih (written + min (fileSize - written) bufSize) _ e ?_ he
            rw [hws, Nat.add_mod_right]
            exact hmod
          · rw [overwriteLoop_done bufSize pattern corrupt fileSize fuel _ _ hend] at he
            exact absurd he (by simp)
        · -- readback mismatch: the error names this chunk's offset
          have h1 := Option.some.inj he
          injection h1 with h2
          exact ⟨written, h2.symm, hlt, hmod⟩
    · rw [overwriteLoop_done bufSize pattern corrupt fileSize (fuel + 1) written
        content hlt] at he
      exact absurd he (by simp)

/-! ## Claim C5: per-chunk immediate write verification -/

/-- Claim C5: during an overwrite pass each written chunk is immediately
re-read and byte-compared against what was just written.  On an honest device
(readback returns exactly the written bytes) the pass succeeds and the final
content is exactly `file_size` pattern-tiled bytes written from offset 0
(`passBytes`, whose length is `file_size`, followed by nothing because the
pass covers the whole file); any readback mismatch aborts the pass with a
`VerificationFailed` error naming the starting offset of the mismatching
chunk (a chunk-aligned offset inside the file). -/
theorem overwrite_contents_spec (bufSize : Nat) (pattern : List Nat)
    (corrupt : Nat → List Nat → List Nat) (content : List Nat)
    (hb : bufSize ≠ 0) (hp : pattern.length ≠ 0) :
    ((∀ o b, corrupt o b = b) →
      overwrite_file_contents bufSize pattern corrupt content content.length
          = some (.ok (passBytes bufSize pattern content.length))
      ∧ (passBytes bufSize pattern content.length).length = content.length)
    ∧ (∀ e, overwrite_file_contents bufSize pattern corrupt content content.length
          = some (.error e) →
        ∃ w, e = .verificationFailed (some w)
          ∧ w < content.length ∧ w % bufSize = 0) := by
  constructor
  · intro hcor
    constructor
    · have h := overwriteLoop_honest bufSize pattern corrupt content.length hb hp
        hcor content.length 0 content (by omega) le_rfl (by omega)
      rw [overwrite_file_contents, h]
      simp
    · exact passBytes_length bufSize pattern hb hp content.length
  · intro e he
    exact overwriteLoop_error bufSize pattern corrupt content.length hb
      content.length 0 content e (by simp) he

/-- Witness for C5: an honest 7-byte file overwritten with a 3-byte pattern
buffer through 2-byte write chunks. -/
theorem overwrite_contents_spec_witness :
    overwrite_file_contents 2 [0xAA, 0x55, 0xCC] (fun _ b => b)
        [1, 2, 3, 4, 5, 6, 7] 7
      = some (.ok (passBytes 2 [0xAA, 0x55, 0xCC] 7))
    ∧ (passBytes 2 [0xAA, 0x55, 0xCC] 7).length = 7 :=
  (overwrite_contents_spec 2 [0xAA, 0x55, 0xCC] (fun _ b => b)
    [1, 2, 3, 4, 5, 6, 7] (by decide) (by decide)).1 (fun _ _ => rfl)

/-! ## Helper lemmas: the wipe computation monad -/

theorem wseq_ok_eval {α β : Type} (x : WipeM α) (f : α → WipeM β) (w : Bool)
    (tr1 : List WipeEvent) (w1 : Bool) (a : α)
    (hx : x w = some (tr1, w1, .ok a)) (tr2 : List WipeEvent) (w2 : Bool)
    (r : Except WipeError β) (hf : f a w1 = some (tr2, w2, r)) :
    wseq x f w = some (tr1 ++ tr2, w2, r) := by
  unfold wseq
  simp only [hx, hf]

theorem wseq_err_eval {α β : Type} (x : WipeM α) (f : α → WipeM β) (w : Bool)
    (tr1 : List WipeEvent) (w1 : Bool) (e : WipeError)
    (hx : x w = some (tr1, w1, .error e)) :
    wseq x f w = some (tr1, w1, .error e) := by
  unfold wseq
  simp only [hx]

theorem wseq_prefix_trace {α β : Type} (x : WipeM α) (f : α → WipeM β) (w : Bool)
    (tr1 : List WipeEvent) (w1 : Bool) (a : α)
    (hx : x w = some (tr1, w1, .ok a)) (tr : List WipeEvent) (w2 : Bool)
    (r : Except WipeError β) (h : wseq x f w = some (tr, w2, r)) :
    ∃ tr2, f a w1 = some (tr2, w2, r) ∧ tr = tr1 ++ tr2 := by
  unfold wseq at h
  simp only [hx] at h
  cases hf : f a w1 with
  | none =>
    simp only [hf] at h
    exact Option.noConfusion h
  | some val =>
    obtain ⟨tr2, w3, r2⟩ := val
    simp only [hf, Option.some.injEq, Prod.mk.injEq] at h
    obtain ⟨h1, h2, h3⟩ := h
    exact ⟨tr2, by rw [h2, h3], h1.symm⟩

theorem wseq_some_cases {α β : Type} (x : WipeM α) (f : α → WipeM β) (w : Bool)
    (tr : List WipeEvent) (w2 : Bool) (r : Except WipeError β)
    (h : wseq x f w = some (tr, w2, r)) :
    (∃ e, r = .error e ∧ x w = some (tr, w2, .error e))
    ∨ (∃ tr1 w1 a tr2, x w = some (tr1, w1, .ok a)
        ∧ f a w1 = some (tr2, w2, r) ∧ tr = tr1 ++ tr2) := by
  unfold wseq at h
  cases hx : x w with
  | none =>
    simp only [hx] at h
    exact Option.noConfusion h
  | some val =>
    obtain ⟨tr1, w1, r1⟩ := val
    simp only [hx] at h
    cases r1 with
    | error e =>
      left
      simp only [Option.some.injEq, Prod.mk.injEq] at h
      obtain ⟨h1, h2, h3⟩ := h
      exact ⟨e, h3.symm, by rw [h1, h2]⟩
    | ok a =>
      right
      cases hf : f a w1 with
      | none =>
        simp only [hf] at h
        exact Option.noConfusion h
      | some val2 =>
        obtain ⟨tr2, w3, r2⟩ := val2
        simp only [hf, Option.some.injEq, Prod.mk.injEq] at h
        obtain ⟨h1, h2, h3⟩ := h
        exact ⟨tr1, w1, a, tr2, rfl, hf.trans (by rw [h2, h3]), h1.symm⟩

theorem preservesW_wpure {α : Type} (a : α) : PreservesW (wpure a) := by
  intro w tr w2 r h
  simp only [wpure, Option.some.injEq, Prod.mk.injEq] at h
  exact h.2.1.symm

theorem traceOk_wpure {α : Type} (P : WipeEvent → Prop) (a : α) :
    TraceOk P (wpure a) := by
  intro w tr w2 r h ev hev
  simp only [wpure, Option.some.injEq, Prod.mk.injEq] at h
  rw [← h.1] at hev
  exact absurd hev (List.not_mem_nil ev)

theorem preservesW_liftStep (ev : WipeEvent) (r : Except WipeError Unit) :
    PreservesW (liftStep ev r) := by
  intro w tr w2 r2 h
  simp only [liftStep, Option.some.injEq, Prod.mk.injEq] at h
  exact h.2.1.symm

theorem traceOk_liftStep (P : WipeEvent → Prop) (ev : WipeEvent)
    (r : Except WipeError Unit) (hP : P ev) : TraceOk P (liftStep ev r) := by
  intro w tr w2 r2 h e he
  simp only [liftStep, Option.some.injEq, Prod.mk.injEq] at h
  rw [← h.1] at he
  rcases List.mem_singleton.mp he with rfl
  exact hP

theorem preservesW_liftPanic {α : Type} (x : Option α) :
    PreservesW (liftPanic x) := by
  intro w tr w2 r h
  cases x with
  | none => exact Option.noConfusion h
  | some a =>
    simp only [liftPanic, Option.some.injEq, Prod.mk.injEq] at h
    exact h.2.1.symm

theorem traceOk_liftPanic {α : Type} (P : WipeEvent → Prop) (x : Option α) :
    TraceOk P (liftPanic x) := by
  intro w tr w2 r h ev hev
  cases x with
  | none => exact Option.noConfusion h
  | some a =>
    simp only [liftPanic, Option.some.injEq, Prod.mk.injEq] at h
    rw [← h.1] at hev
    exact absurd hev (List.not_mem_nil ev)

theorem preservesW_overwriteStep (bufSize : Nat) (p : WipePattern)
    (corrupt : Nat → List Nat → List Nat) (patBuf content : List Nat)
    (fileSize : Nat) :
    PreservesW (overwriteStep bufSize p corrupt patBuf content fileSize) := by
  intro w tr w2 r h
  unfold overwriteStep at h
  cases hov : overwrite_file_contents bufSize patBuf corrupt content fileSize with
  | none => rw [hov] at h; exact Option.noConfusion h
  | some r2 =>
    rw [hov] at h
    cases r2 with
    | ok c =>
      simp only [Option.some.injEq, Prod.mk.injEq] at h
      exact h.2.1.symm
    | error e =>
      simp only [Option.some.injEq, Prod.mk.injEq] at h
      exact h.2.1.symm

theorem traceOk_overwriteStep (P : WipeEvent → Prop) (bufSize : Nat)
    (p : WipePattern) (corrupt : Nat → List Nat → List Nat)
    (patBuf content : List Nat) (fileSize : Nat)
    (hP : P (.passOverwrite p)) :
    TraceOk P (overwriteStep bufSize p corrupt patBuf content fileSize) := by
  intro w tr w2 r h ev hev
  unfold overwriteStep at h
  cases hov : overwrite_file_contents bufSize patBuf corrupt content fileSize with
  | none => rw [hov] at h; exact Option.noConfusion h
  | some r2 =>
    rw [hov] at h
    cases r2 with
    | ok c =>
      simp only [Option.some.injEq, Prod.mk.injEq] at h
      rw [← h.1] at hev
      rcases List.mem_singleton.mp hev with rfl
      exact hP
    | error e =>
      simp only [Option.some.injEq, Prod.mk.injEq] at h
      rw [← h.1] at hev
      rcases List.mem_singleton.mp hev with rfl
      exact hP

theorem preservesW_verifyStep (level : VerificationLevel)
    (patBuf content : List Nat) (rng : Nat → Nat) :
    PreservesW (verifyStep level patBuf content rng) := by
  intro w tr w2 r h
  unfold verifyStep at h
  cases hv : verify_wiping level patBuf content rng with
  | none => rw [hv] at h; exact Option.noConfusion h
  | some r2 =>
    rw [hv] at h
    simp only [Option.some.injEq, Prod.mk.injEq] at h
    exact h.2.1.symm

theorem traceOk_verifyStep (P : WipeEvent → Prop) (level : VerificationLevel)
    (patBuf content : List Nat) (rng : Nat → Nat)
    (hP : P (.verifyOp level)) :
    TraceOk P (verifyStep level patBuf content rng) := by
  intro w tr w2 r h ev hev
  unfold verifyStep at h
  cases hv : verify_wiping level patBuf content rng with
  | none => rw [hv] at h; exact Option.noConfusion h
  | some r2 =>
    rw [hv] at h
    simp only [Option.some.injEq, Prod.mk.injEq] at h
    rw [← h.1] at hev
    rcases List.mem_singleton.mp hev with rfl
    exact hP

theorem preservesW_hwAttemptStep (env : WipeEnv) :
    PreservesW (hwAttemptStep env) := by
  intro w tr w2 r h
  simp only [hwAttemptStep, Option.some.injEq, Prod.mk.injEq] at h
  exact h.2.1.symm

theorem traceOk_hwAttemptStep (P : WipeEvent → Prop) (env : WipeEnv)
    (hP : P .hwSecureErase) : TraceOk P (hwAttemptStep env) := by
  intro w tr w2 r h ev hev
  simp only [hwAttemptStep, Option.some.injEq, Prod.mk.injEq] at h
  rw [← h.1] at hev
  rcases List.mem_singleton.mp hev with rfl
  exact hP

theorem traceOk_removeStep (P : WipeEvent → Prop) (r : Except WipeError Unit)
    (hP : P .removeFile) : TraceOk P (removeStep r) := by
  intro w tr w2 r2 h ev hev
  simp only [removeStep, Option.some.injEq, Prod.mk.injEq] at h
  rw [← h.1] at hev
  rcases List.mem_singleton.mp hev with rfl
  exact hP

theorem preservesW_wseq {α β : Type} (x : WipeM α) (f : α → WipeM β)
    (hx : PreservesW x) (hf : ∀ a, PreservesW (f a)) :
    PreservesW (wseq x f) := by
  intro w tr w2 r h
  rcases wseq_some_cases x f w tr w2 r h with ⟨e, _, hxe⟩ |
    ⟨tr1, w1, a, tr2, hxo, hfo, _⟩
  · exact hx w tr w2 _ hxe
  · rw [hf a w1 tr2 w2 r hfo]
    exact hx w tr1 w1 _ hxo

theorem traceOk_wseq {α β : Type} (P : WipeEvent → Prop) (x : WipeM α)
    (f : α → WipeM β) (hx : TraceOk P x) (hf : ∀ a, TraceOk P (f a)) :
    TraceOk P (wseq x f) := by
  intro w tr w2 r h ev hev
  rcases wseq_some_cases x f w tr w2 r h with ⟨e, _, hxe⟩ |
    ⟨tr1, w1, a, tr2, hxo, hfo, htr⟩
  · exact hx w tr w2 _ hxe ev hev
  · subst htr
    rcases List.mem_append.mp hev with h1 | h2
    · exact hx w tr1 w1 _ hxo ev h1
    · exact hf a w1 tr2 w2 r hfo ev h2

theorem preservesW_handle_wear (sh : Shredder) (env : WipeEnv) :
    PreservesW (handle_wear_leveling sh env) := by
  unfold handle_wear_leveling
  cases sh.storage_type with
  | hdd caps => exact preservesW_wpure ()
  | ssd caps =>
    cases h : caps.supports_trim
    · simp only [h, if_false]
      exact preservesW_wpure ()
    · simp only [h, if_true]
      exact preservesW_liftStep _ _
  | flash caps =>
    cases h : caps.supports_trim
    · simp only [h, if_false]
      exact preservesW_wpure ()
    · simp only [h, if_true]
      exact preservesW_liftStep _ _

theorem traceOk_handle_wear (P : WipeEvent → Prop) (sh : Shredder)
    (env : WipeEnv) (hP : P .trimOp) :
    TraceOk P (handle_wear_leveling sh env) := by
  unfold handle_wear_leveling
  cases sh.storage_type with
  | hdd caps => exact traceOk_wpure P ()
  | ssd caps =>
    cases h : caps.supports_trim
    · simp only [h, if_false]
      exact traceOk_wpure P ()
    · simp only [h, if_true]
      exact traceOk_liftStep P _ _ hP
  | flash caps =>
    cases h : caps.supports_trim
    · simp only [h, if_false]
      exact traceOk_wpure P ()
    · simp only [h, if_true]
      exact traceOk_liftStep P _ _ hP

theorem preservesW_wearSection (sh : Shredder) (env : WipeEnv) :
    PreservesW (wearSection sh env) := by
  unfold wearSection
  by_cases h : sh.storage_type.requires_wear_leveling_handling
  · rw [if_pos h]
    exact preservesW_handle_wear sh env
  · rw [if_neg h]
    exact preservesW_wpure ()

theorem traceOk_wearSection (P : WipeEvent → Prop) (sh : Shredder)
    (env : WipeEnv) (hP : P .trimOp) : TraceOk P (wearSection sh env) := by
  unfold wearSection
  by_cases h : sh.storage_type.requires_wear_leveling_handling
  · rw [if_pos h]
    exact traceOk_handle_wear P sh env hP
  · rw [if_neg h]
    exact traceOk_wpure P ()

theorem preservesW_passLoop (bufSize : Nat) (env : WipeEnv)
    (optSize fileSize : Nat) (verifyAfter : Option VerificationLevel) :
    ∀ ps idx content buffer,
      PreservesW (passLoop bufSize env optSize fileSize verifyAfter
        ps idx content buffer) := by
  intro ps
  induction ps with
  | nil => intro idx content buffer; exact preservesW_wpure _
  | cons p ps ih =>
    intro idx content buffer
    apply preservesW_wseq _ _ (preservesW_liftPanic _)
    intro buf
    apply preservesW_wseq _ _ (preservesW_overwriteStep _ _ _ _ _ _)
    intro c
    apply preservesW_wseq
    · cases verifyAfter with
      | none => exact preservesW_wpure ()
      | some level => exact preservesW_verifyStep _ _ _ _
    · intro _
      exact ih (idx + 1) c buf

theorem traceOk_passLoop (P : WipeEvent → Prop) (bufSize : Nat) (env : WipeEnv)
    (optSize fileSize : Nat) (verifyAfter : Option VerificationLevel)
    (hPp : ∀ p, P (.passOverwrite p)) (hPv : ∀ level, P (.verifyOp level)) :
    ∀ ps idx content buffer,
      TraceOk P (passLoop bufSize env optSize fileSize verifyAfter
        ps idx content buffer) := by
  intro ps
  induction ps with
  | nil => intro idx content buffer; exact traceOk_wpure P _
  | cons p ps ih =>
    intro idx content buffer
    apply traceOk_wseq P _ _ (traceOk_liftPanic P _)
    intro buf
    apply traceOk_wseq P _ _ (traceOk_overwriteStep P _ _ _ _ _ _ (hPp p))
    intro c
    apply traceOk_wseq P
    · cases verifyAfter with
      | none => exact traceOk_wpure P ()
      | some level => exact traceOk_verifyStep P _ _ _ _ (hPv level)
    · intro _
      exact ih (idx + 1) c buf

theorem preservesW_purge (sh : Shredder) (env : WipeEnv)
    (optSize fileSize : Nat) (content buffer : List Nat) :
    PreservesW (perform_purge_overwrite sh env optSize fileSize content buffer) :=
  preservesW_passLoop sh.buffer_size env optSize fileSize Option.none
    purgePatterns 0 content buffer

theorem traceOk_purge (P : WipeEvent → Prop) (sh : Shredder) (env : WipeEnv)
    (optSize fileSize : Nat) (content buffer : List Nat)
    (hPp : ∀ p, P (.passOverwrite p)) (hPv : ∀ level, P (.verifyOp level)) :
    TraceOk P (perform_purge_overwrite sh env optSize fileSize content buffer) :=
  traceOk_passLoop P sh.buffer_size env optSize fileSize Option.none hPp hPv
    purgePatterns 0 content buffer

theorem preservesW_modernMethod (sh : Shredder) (cfg : Nist80088Config)
    (env : WipeEnv) (optSize fileSize : Nat) :
    PreservesW (modernMethod sh cfg env optSize fileSize) := by
  unfold modernMethod
  cases cfg.method with
  | clear =>
    apply preservesW_wseq _ _ (preservesW_liftPanic _)
    intro buf
    apply preservesW_wseq _ _ (preservesW_overwriteStep _ _ _ _ _ _)
    intro c
    exact preservesW_wpure _
  | purge =>
    by_cases h : sh.storage_type.supports_secure_erase
    · rw [if_pos h]
      apply preservesW_wseq _ _ (preservesW_hwAttemptStep env)
      intro hw
      cases hw with
      | ok _ => exact preservesW_wpure _
      | error _ => exact preservesW_purge sh env optSize fileSize _ _
    · rw [if_neg h]
      exact preservesW_purge sh env optSize fileSize _ _

theorem traceOk_modernMethod (P : WipeEvent → Prop) (sh : Shredder)
    (cfg : Nist80088Config) (env : WipeEnv) (optSize fileSize : Nat)
    (hPp : ∀ p, P (.passOverwrite p)) (hPv : ∀ level, P (.verifyOp level))
    (hPh : P .hwSecureErase) :
    TraceOk P (modernMethod sh cfg env optSize fileSize) := by
  unfold modernMethod
  cases cfg.method with
  | clear =>
    apply traceOk_wseq P _ _ (traceOk_liftPanic P _)
    intro buf
    apply traceOk_wseq P _ _ (traceOk_overwriteStep P _ _ _ _ _ _ (hPp _))
    intro c
    exact traceOk_wpure P _
  | purge =>
    by_cases h : sh.storage_type.supports_secure_erase
    · rw [if_pos h]
      apply traceOk_wseq P _ _ (traceOk_hwAttemptStep P env hPh)
      intro hw
      cases hw with
      | ok _ => exact traceOk_wpure P _
      | error _ => exact traceOk_purge P sh env optSize fileSize _ _ hPp hPv
    · rw [if_neg h]
      exact traceOk_purge P sh env optSize fileSize _ _ hPp hPv

theorem preservesW_modernVerify (cfg : Nist80088Config)
    (cb : List Nat × List Nat) (env : WipeEnv) :
    PreservesW (modernVerify cfg cb env) := by
  unfold modernVerify
  by_cases h : cfg.verify_level ≠ .none
  · rw [if_pos h]
    exact preservesW_verifyStep _ _ _ _
  · rw [if_neg h]
    exact preservesW_wpure ()

theorem traceOk_modernVerify (P : WipeEvent → Prop) (cfg : Nist80088Config)
    (cb : List Nat × List Nat) (env : WipeEnv)
    (hPv : ∀ level, P (.verifyOp level)) :
    TraceOk P (modernVerify cfg cb env) := by
  unfold modernVerify
  by_cases h : cfg.verify_level ≠ .none
  · rw [if_pos h]
    exact traceOk_verifyStep P _ _ _ _ (hPv _)
  · rw [if_neg h]
    exact traceOk_wpure P ()

theorem finish_sync_err (env : WipeEnv) (e : WipeError) (w : Bool)
    (h : env.syncRes = .error e) :
    finishSteps env w = some ([.syncAll], w, .error e) := by
  unfold finishSteps
  apply wseq_err_eval
  simp only [liftStep, h]

theorem finish_remove_ok (env : WipeEnv) (w : Bool)
    (h1 : env.syncRes = .ok ()) (h2 : env.removeRes = .ok ()) :
    finishSteps env w = some ([.syncAll, .removeFile], false, .ok ()) := by
  unfold finishSteps
  have := wseq_ok_eval (liftStep .syncAll env.syncRes)
    (fun _ => removeStep env.removeRes) w [.syncAll] w ()
    (by simp only [liftStep, h1]) [.removeFile] false (.ok ())
    (by simp only [removeStep, h2])
  simpa using this

theorem finish_remove_err (env : WipeEnv) (e : WipeError) (w : Bool)
    (h1 : env.syncRes = .ok ()) (h2 : env.removeRes = .error e) :
    finishSteps env w = some ([.syncAll, .removeFile], w, .error e) := by
  unfold finishSteps
  have := wseq_ok_eval (liftStep .syncAll env.syncRes)
    (fun _ => removeStep env.removeRes) w [.syncAll] w ()
    (by simp only [liftStep, h1]) [.removeFile] w (.error e)
    (by simp only [removeStep, h2])
  simpa using this

theorem wseq_assoc {α β γ : Type} (x : WipeM α) (f : α → WipeM β)
    (g : β → WipeM γ) :
    wseq (wseq x f) g = wseq x (fun a => wseq (f a) g) := by
  funext w
  simp only [wseq]
  cases hx : x w with
  | none => rfl
  | some val =>
    obtain ⟨tr1, w1, r1⟩ := val
    cases r1 with
    | error e => rfl
    | ok a =>
      cases hf : f a w1 with
      | none => simp [hf]
      | some val2 =>
        obtain ⟨tr2, w2, r2⟩ := val2
        cases r2 with
        | error e => simp [hf]
        | ok b =>
          cases hg : g b w2 with
          | none => simp [hf, hg]
          | some val3 =>
            obtain ⟨tr3, w3, r3⟩ := val3
            simp [hf, hg, List.append_assoc]

theorem perform_modern_shape (sh : Shredder) (cfg : Nist80088Config)
    (env : WipeEnv) :
    perform_modern_wipe sh cfg env
      = wseq (modernMain sh cfg env) (fun _ => finishSteps env) := by
  unfold perform_modern_wipe modernMain
  rw [wseq_assoc, wseq_assoc, wseq_assoc]

theorem perform_legacy_shape (sh : Shredder) (cfg : LegacyConfig)
    (env : WipeEnv) :
    perform_legacy_wipe sh cfg env
      = wseq (legacyMain sh cfg env) (fun _ => finishSteps env) := by
  unfold perform_legacy_wipe legacyMain
  rw [wseq_assoc, wseq_assoc]

theorem perform_custom_shape (sh : Shredder) (cfg : WipeConfig)
    (env : WipeEnv) :
    perform_custom_wipe sh cfg env
      = wseq (customMain sh cfg env) (fun _ => finishSteps env) := by
  unfold perform_custom_wipe customMain
  rw [wseq_assoc]

theorem preservesW_modernMain (sh : Shredder) (cfg : Nist80088Config)
    (env : WipeEnv) : PreservesW (modernMain sh cfg env) := by
  unfold modernMain
  apply preservesW_wseq _ _ (preservesW_liftStep _ _)
  intro _
  apply preservesW_wseq _ _ (preservesW_wearSection sh env)
  intro _
  apply preservesW_wseq _ _ (preservesW_modernMethod sh cfg env _ _)
  intro cb
  exact preservesW_modernVerify cfg cb env

theorem traceOk_modernMain (P : WipeEvent → Prop) (sh : Shredder)
    (cfg : Nist80088Config) (env : WipeEnv)
    (hPo : P .openFile) (hPt : P .trimOp) (hPh : P .hwSecureErase)
    (hPp : ∀ p, P (.passOverwrite p)) (hPv : ∀ level, P (.verifyOp level)) :
    TraceOk P (modernMain sh cfg env) := by
  unfold modernMain
  apply traceOk_wseq P _ _ (traceOk_liftStep P _ _ hPo)
  intro _
  apply traceOk_wseq P _ _ (traceOk_wearSection P sh env hPt)
  intro _
  apply traceOk_wseq P _ _ (traceOk_modernMethod P sh cfg env _ _ hPp hPv hPh)
  intro cb
  exact traceOk_modernVerify P cfg cb env hPv

theorem preservesW_legacyMain (sh : Shredder) (cfg : LegacyConfig)
    (env : WipeEnv) : PreservesW (legacyMain sh cfg env) := by
  unfold legacyMain
  apply preservesW_wseq _ _ (preservesW_liftStep _ _)
  intro _
  apply preservesW_wseq _ _ (preservesW_passLoop _ _ _ _ _ _ _ _ _)
  intro cb
  by_cases h : cfg.extra_verification
  · rw [if_pos h]
    exact preservesW_verifyStep _ _ _ _
  · rw [if_neg h]
    exact preservesW_wpure ()

theorem traceOk_legacyMain (P : WipeEvent → Prop) (sh : Shredder)
    (cfg : LegacyConfig) (env : WipeEnv)
    (hPo : P .openFile)
    (hPp : ∀ p, P (.passOverwrite p)) (hPv : ∀ level, P (.verifyOp level)) :
    TraceOk P (legacyMain sh cfg env) := by
  unfold legacyMain
  apply traceOk_wseq P _ _ (traceOk_liftStep P _ _ hPo)
  intro _
  apply traceOk_wseq P _ _ (traceOk_passLoop P _ _ _ _ _ hPp hPv _ _ _ _)
  intro cb
  by_cases h : cfg.extra_verification
  · rw [if_pos h]
    exact traceOk_verifyStep P _ _ _ _ (hPv _)
  · rw [if_neg h]
    exact traceOk_wpure P ()

theorem preservesW_customMain (sh : Shredder) (cfg : WipeConfig)
    (env : WipeEnv) : PreservesW (customMain sh cfg env) := by
  unfold customMain
  apply preservesW_wseq _ _ (preservesW_liftStep _ _)
  intro _
  exact preservesW_passLoop _ _ _ _ _ _ _ _ _

theorem traceOk_customMain (P : WipeEvent → Prop) (sh : Shredder)
    (cfg : WipeConfig) (env : WipeEnv)
    (hPo : P .openFile)
    (hPp : ∀ p, P (.passOverwrite p)) (hPv : ∀ level, P (.verifyOp level)) :
    TraceOk P (customMain sh cfg env) := by
  unfold customMain
  apply traceOk_wseq P _ _ (traceOk_liftStep P _ _ hPo)
  intro _
  exact traceOk_passLoop P _ _ _ _ _ hPp hPv _ _ _ _

theorem getLast_append_pair {α : Type} (tr1 : List α) (a b : α) :
    (tr1 ++ [a, b]).getLast? = some b := by
  simp [List.getLast?_append]

theorem wipeShape_spec {α : Type} (main : WipeM α) (env : WipeEnv)
    (hpw : PreservesW main)
    (hnr : TraceOk (fun ev => ev ≠ WipeEvent.removeFile) main)
    (tr : List WipeEvent) (w2 : Bool) (r : Except WipeError Unit)
    (h : wseq main (fun _ => finishSteps env) true = some (tr, w2, r)) :
    (r = .ok () → w2 = false ∧ tr.getLast? = some .removeFile
      ∧ env.syncRes = .ok () ∧ env.removeRes = .ok ())
    ∧ (∀ e, r = .error e → w2 = true)
    ∧ (w2 = false → r = .ok ())
    ∧ (.removeFile ∈ tr → tr.getLast? = some .removeFile) := by
  rcases wseq_some_cases main _ true tr w2 r h with ⟨e, rfl, hxe⟩ |
    ⟨tr1, w1, a, tr2, hx, hf, rfl⟩
  · have hw := hpw true tr w2 _ hxe
    subst hw
    refine ⟨fun h0 => Except.noConfusion h0, fun _ _ => rfl,
      fun h0 => Bool.noConfusion h0, fun hmem => ?_⟩
    exact absurd rfl (hnr true tr true _ hxe .removeFile hmem)
  · have hw1 := hpw true tr1 w1 _ hx
    subst hw1
    cases hsync : env.syncRes with
    | error e =>
      rw [finish_sync_err env e true hsync] at hf
      simp only [Option.some.injEq, Prod.mk.injEq] at hf
      obtain ⟨h1, h2, h3⟩ := hf
      subst h1
      subst h2
      subst h3
      refine ⟨fun h0 => Except.noConfusion h0, fun _ _ => rfl,
        fun h0 => Bool.noConfusion h0, fun hmem => ?_⟩
      rcases List.mem_append.mp hmem with hin | hin
      · exact absurd rfl (hnr true tr1 true _ hx .removeFile hin)
      · rcases List.mem_singleton.mp hin with h4
        exact absurd h4 (by decide)
    | ok u =>
      cases u
      cases hrem : env.removeRes with
      | ok u2 =>
        cases u2
        rw [finish_remove_ok env true hsync hrem] at hf
        simp only [Option.some.injEq, Prod.mk.injEq] at hf
        obtain ⟨h1, h2, h3⟩ := hf
        subst h1
        subst h2
        subst h3
        refine ⟨fun _ => ⟨rfl, getLast_append_pair tr1 _ _, rfl, rfl⟩,
          fun e h0 => Except.noConfusion h0, fun _ => rfl,
          fun _ => getLast_append_pair tr1 _ _⟩
      | error e =>
        rw [finish_remove_err env e true hsync hrem] at hf
        simp only [Option.some.injEq, Prod.mk.injEq] at hf
        obtain ⟨h1, h2, h3⟩ := hf
        subst h1
        subst h2
        subst h3
        refine ⟨fun h0 => Except.noConfusion h0, fun _ _ => rfl,
          fun h0 => Bool.noConfusion h0,
          fun _ => getLast_append_pair tr1 _ _⟩

/-! ## Claim C1: success implies removal, removal only as final step -/

/-- Claim C1: for every configured standard and environment, if the wipe
returns Ok the file has been removed and the removal is the final recorded
step, reached only after the sync (and everything before it) succeeded; if
any step returns an error, the wipe returns an error and the file still
exists; conversely the file is gone only when the wipe returned Ok, and a
removal event can only ever be the last event of the trace. -/
theorem wipe_success_iff_removed (sh : Shredder) (env : WipeEnv)
    (o : WipeOutcome) (h : runWipe sh env = some o) :
    (o.result = .ok () → o.fileExists = false
      ∧ o.trace.getLast? = some .removeFile
      ∧ env.syncRes = .ok () ∧ env.removeRes = .ok ())
    ∧ (∀ e, o.result = .error e → o.fileExists = true)
    ∧ (o.fileExists = false → o.result = .ok ())
    ∧ (.removeFile ∈ o.trace → o.trace.getLast? = some .removeFile) := by
  unfold runWipe at h
  cases hw : Shredder.wipe sh env true with
  | none =>
    rw [hw] at h
    exact Option.noConfusion h
  | some val =>
    obtain ⟨tr, w2, r⟩ := val
    rw [hw] at h
    have ho := Option.some.inj h
    subst ho
    unfold Shredder.wipe at hw
    cases hstd : sh.standard with
    | modern cfg =>
      rw [hstd] at hw
      rw [show (match WipeStandard.modern cfg with
          | WipeStandard.modern cfg => perform_modern_wipe sh cfg env
          | WipeStandard.legacy cfg => perform_legacy_wipe sh cfg env
          | WipeStandard.custom cfg => perform_custom_wipe sh cfg env)
        = perform_modern_wipe sh cfg env from rfl, perform_modern_shape] at hw
      exact wipeShape_spec (modernMain sh cfg env) env
        (preservesW_modernMain sh cfg env)
        (traceOk_modernMain _ sh cfg env (by decide) (by decide) (by decide)
          (fun p => by simp) (fun level => by simp))
        tr w2 r hw
    | legacy cfg =>
      rw [hstd] at hw
      rw [show (match WipeStandard.legacy cfg with
          | WipeStandard.modern cfg => perform_modern_wipe sh cfg env
          | WipeStandard.legacy cfg => perform_legacy_wipe sh cfg env
          | WipeStandard.custom cfg => perform_custom_wipe sh cfg env)
        = perform_legacy_wipe sh cfg env from rfl, perform_legacy_shape] at hw
      exact wipeShape_spec (legacyMain sh cfg env) env
        (preservesW_legacyMain sh cfg env)
        (traceOk_legacyMain _ sh cfg env (by decide)
          (fun p => by simp) (fun level => by simp))
        tr w2 r hw
    | custom cfg =>
      rw [hstd] at hw
      rw [show (match WipeStandard.custom cfg with
          | WipeStandard.modern cfg => perform_modern_wipe sh cfg env
          | WipeStandard.legacy cfg => perform_legacy_wipe sh cfg env
          | WipeStandard.custom cfg => perform_custom_wipe sh cfg env)
        = perform_custom_wipe sh cfg env from rfl, perform_custom_shape] at hw
      exact wipeShape_spec (customMain sh cfg env) env
        (preservesW_customMain sh cfg env)
        (traceOk_customMain _ sh cfg env (by decide)
          (fun p => by simp) (fun level => by simp))
        tr w2 r hw

/-- Witness for C1 at a concrete successful run: the file is removed, the
removal is the final step, sync and remove both succeeded. -/
theorem wipe_success_iff_removed_witness :
    (false : Bool) = false
    ∧ ([WipeEvent.openFile, .passOverwrite .zeros, .passOverwrite .ones,
        .passOverwrite .random, .syncAll, .removeFile].getLast?
          = some WipeEvent.removeFile)
    ∧ envAllOk.syncRes = .ok () ∧ envAllOk.removeRes = .ok () :=
  (wipe_success_iff_removed shLegacyDod envAllOk
    { result := .ok (),
      trace := [WipeEvent.openFile, .passOverwrite .zeros, .passOverwrite .ones,
        .passOverwrite .random, .syncAll, .removeFile],
      fileExists := false }
    rfl).1 rfl

theorem wearSection_ok (sh : Shredder) (env : WipeEnv) (w : Bool)
    (htrim : env.trimRes = .ok ()) :
    wearSection sh env w = some (wearEvents sh, w, .ok ()) := by
  unfold wearSection wearEvents handle_wear_leveling
    StorageType.requires_wear_leveling_handling StorageType.trimFlag
  cases sh.storage_type with
  | hdd caps => simp [wpure]
  | ssd caps =>
    cases h1 : caps.has_wear_leveling <;> cases h2 : caps.supports_trim <;>
      simp [wpure, liftStep, htrim, h1, h2]
  | flash caps =>
    cases h1 : caps.has_wear_leveling <;> cases h2 : caps.supports_trim <;>
      simp [wpure, liftStep, htrim, h1, h2]

theorem calc_pos (fileSize : Nat) (h : fileSize ≠ 0) :
    calculate_optimal_buffer_size fileSize ≠ 0 := by
  unfold calculate_optimal_buffer_size
  by_cases h2 : fileSize < 4 * 1024
  · rw [if_pos h2]
    exact h
  · rw [if_neg h2]
    omega

theorem fill_some (p : WipePattern) (rng : Nat → Nat) (n : Nat)
    (hns : ∀ bs, p = WipePattern.custom bs → bs ≠ []) :
    ∃ buf, fill_buffer p rng (List.replicate n 0) = some buf
      ∧ buf.length = n := by
  cases p with
  | zeros => exact ⟨_, rfl, by simp⟩
  | ones => exact ⟨_, rfl, by simp⟩
  | random => exact ⟨_, rfl, by simp⟩
  | custom pat =>
    have hp : pat.length ≠ 0 := by
      intro h0
      exact hns pat rfl (List.length_eq_zero.mp h0)
    have hpe : pat ≠ [] := fun hh => hp (by rw [hh]; rfl)
    refine ⟨fillChunks pat n, ?_, ?_⟩
    · simp [fill_buffer, hpe]
    · rw [fillChunks_length pat hp]

theorem overwrite_ok (bufSize : Nat) (patBuf : List Nat)
    (corrupt : Nat → List Nat → List Nat) (content : List Nat) (fileSize : Nat)
    (hb : bufSize ≠ 0) (hcor : ∀ o b, corrupt o b = b)
    (hlen : content.length = fileSize)
    (hpb : patBuf.length ≠ 0 ∨ fileSize = 0) :
    ∃ c2, overwrite_file_contents bufSize patBuf corrupt content fileSize
      = some (.ok c2) ∧ c2.length = fileSize := by
  by_cases hfs : fileSize = 0
  · subst hfs
    refine ⟨content, ?_, hlen⟩
    unfold overwrite_file_contents
    exact overwriteLoop_done bufSize patBuf corrupt 0 0 0 content (by omega)
  · have hpb2 : patBuf.length ≠ 0 := by
      rcases hpb with h | h
      · exact h
      · exact absurd h hfs
    refine ⟨passBytes bufSize patBuf fileSize ++ content.drop fileSize, ?_, ?_⟩
    · unfold overwrite_file_contents
      have h := overwriteLoop_honest bufSize patBuf corrupt fileSize hb hpb2
        hcor fileSize 0 content (by omega) (by omega) (by omega)
      rw [h]
      simp
    · simp only [List.length_append, List.length_drop,
        passBytes_length bufSize patBuf hb hpb2]
      omega

theorem passLoop_ok (bufSize : Nat) (env : WipeEnv) (optSize fileSize : Nat)
    (hb : bufSize ≠ 0) (hcor : ∀ o b, env.corrupt o b = b)
    (hsz : optSize ≠ 0 ∨ fileSize = 0) :
    ∀ ps, (∀ p ∈ ps, ∀ bs, p = WipePattern.custom bs → bs ≠ []) →
    ∀ idx content buffer w, content.length = fileSize →
      ∃ c2 b2, passLoop bufSize env optSize fileSize Option.none
          ps idx content buffer w
        = some (ps.map (fun p => WipeEvent.passOverwrite p), w, .ok (c2, b2))
        ∧ c2.length = fileSize := by
  intro ps
  induction ps with
  | nil =>
    intro _ idx content buffer w hlen
    exact ⟨content, buffer, rfl, hlen⟩
  | cons p ps ih =>
    intro hns idx content buffer w hlen
    obtain ⟨buf, hfill, hbuflen⟩ := fill_some p (env.rngFill idx) optSize
      (hns p (List.mem_cons_self p ps))
    obtain ⟨c2, hov, hc2len⟩ := overwrite_ok bufSize buf env.corrupt content
      fileSize hb hcor hlen (by rw [hbuflen]; exact hsz)
    obtain ⟨c3, b3, hrec, hc3len⟩ := ih
      (fun q hq => hns q (List.mem_cons_of_mem p hq)) (idx + 1) c2 buf w hc2len
    refine ⟨c3, b3, ?_, hc3len⟩
    show wseq (liftPanic (fill_buffer p (env.rngFill idx) (List.replicate optSize 0)))
      _ w = _
    rw [wseq_ok_eval _ _ w [] w buf (by simp [liftPanic, hfill])
      (WipeEvent.passOverwrite p :: List.map (fun p => WipeEvent.passOverwrite p) ps)
      w (.ok (c3, b3)) ?_]
    · simp
    · rw [wseq_ok_eval _ _ w [.passOverwrite p] w c2
        (by unfold overwriteStep; rw [hov])
        (List.map (fun p => WipeEvent.passOverwrite p) ps) w (.ok (c3, b3)) ?_]
      · simp
      · rw [wseq_ok_eval _ _ w [] w () rfl
          (List.map (fun p => WipeEvent.passOverwrite p) ps) w (.ok (c3, b3)) hrec]
        simp

theorem purgePatterns_no_custom :
    ∀ p ∈ purgePatterns, ∀ bs, p = WipePattern.custom bs → bs ≠ [] := by
  intro p hp bs hbs
  fin_cases hp <;> cases hbs

theorem traceOk_finishSteps (P : WipeEvent → Prop) (env : WipeEnv)
    (hPs : P .syncAll) (hPr : P .removeFile) : TraceOk P (finishSteps env) :=
  traceOk_wseq P _ _ (traceOk_liftStep P _ _ hPs)
    (fun _ => traceOk_removeStep P _ hPr)

theorem modernMethod_hwok (sh : Shredder) (cfg : Nist80088Config)
    (env : WipeEnv) (optSize fileSize : Nat) (w : Bool)
    (hm : cfg.method = .purge)
    (hsup : sh.storage_type.supports_secure_erase = true)
    (hhw : env.hwRes = .ok ()) :
    modernMethod sh cfg env optSize fileSize w
      = some ([.hwSecureErase], w, .ok (env.content, List.replicate optSize 0)) := by
  unfold modernMethod
  simp only [hm]
  rw [if_pos hsup]
  rw [wseq_ok_eval _ _ w [.hwSecureErase] w env.hwRes rfl [] w
    (.ok (env.content, List.replicate optSize 0)) (by rw [hhw]; rfl)]
  simp

theorem modernMethod_hwerr (sh : Shredder) (cfg : Nist80088Config)
    (env : WipeEnv) (optSize fileSize : Nat) (w : Bool) (e : WipeError)
    (hm : cfg.method = .purge)
    (hsup : sh.storage_type.supports_secure_erase = true)
    (hhw : env.hwRes = .error e)
    (hb : sh.buffer_size ≠ 0) (hcor : ∀ o b, env.corrupt o b = b)
    (hsz : optSize ≠ 0 ∨ fileSize = 0) (hclen : env.content.length = fileSize) :
    ∃ c2 b2, modernMethod sh cfg env optSize fileSize w
      = some (WipeEvent.hwSecureErase
            :: purgePatterns.map (fun p => WipeEvent.passOverwrite p), w,
          .ok (c2, b2))
        ∧ c2.length = fileSize := by
  obtain ⟨c2, b2, hrec, hlen⟩ := passLoop_ok sh.buffer_size env optSize fileSize
    hb hcor hsz purgePatterns purgePatterns_no_custom 0 env.content
    (List.replicate optSize 0) w hclen
  refine ⟨c2, b2, ?_, hlen⟩
  unfold modernMethod
  simp only [hm]
  rw [if_pos hsup]
  rw [wseq_ok_eval _ _ w [.hwSecureErase] w env.hwRes rfl
    (purgePatterns.map (fun p => WipeEvent.passOverwrite p)) w
    (.ok (c2, b2)) (by rw [hhw]; exact hrec)]
  simp

theorem modernMethod_nohw (sh : Shredder) (cfg : Nist80088Config)
    (env : WipeEnv) (optSize fileSize : Nat) (w : Bool)
    (hm : cfg.method = .purge)
    (hsup : sh.storage_type.supports_secure_erase = false)
    (hb : sh.buffer_size ≠ 0) (hcor : ∀ o b, env.corrupt o b = b)
    (hsz : optSize ≠ 0 ∨ fileSize = 0) (hclen : env.content.length = fileSize) :
    ∃ c2 b2, modernMethod sh cfg env optSize fileSize w
      = some (purgePatterns.map (fun p => WipeEvent.passOverwrite p), w,
          .ok (c2, b2))
        ∧ c2.length = fileSize := by
  obtain ⟨c2, b2, hrec, hlen⟩ := passLoop_ok sh.buffer_size env optSize fileSize
    hb hcor hsz purgePatterns purgePatterns_no_custom 0 env.content
    (List.replicate optSize 0) w hclen
  refine ⟨c2, b2, ?_, hlen⟩
  unfold modernMethod
  simp only [hm]
  rw [if_neg (by rw [hsup]; exact Bool.false_ne_true)]
  exact hrec

theorem wearEvents_trim_only (sh : Shredder) :
    ∀ ev ∈ wearEvents sh, ev = WipeEvent.trimOp := by
  unfold wearEvents
  split
  · intro ev hev
    exact List.mem_singleton.mp hev
  · intro ev hev
    exact absurd hev (List.not_mem_nil ev)

theorem filter_pass_wearEvents (sh : Shredder) :
    (wearEvents sh).filter isPassEvent = [] := by
  unfold wearEvents
  split <;> rfl

/-! ## Claim C2: Modern Purge — hardware first, 4-pass software fallback -/

/-- Claim C2: for a Modern standard with method Purge (under a working open
and TRIM, an honest device, and a non-degenerate write-chunk size): when the
storage type supports secure erase the hardware secure-erase collaborator is
attempted first — before any overwrite pass — and on its success no software
pass runs at all, while on any hardware failure the wipe falls back to the
software sequence writing exactly the passes Random, Zeros, Ones, Random in
that order; when the storage type does not support secure erase, no hardware
attempt is made and exactly that 4-pass sequence runs directly. -/
theorem modern_purge_spec (sh : Shredder) (cfg : Nist80088Config)
    (env : WipeEnv) (tr : List WipeEvent) (w2 : Bool)
    (r : Except WipeError Unit)
    (hm : cfg.method = .purge)
    (hopen : env.openRes = .ok ())
    (htrim : env.trimRes = .ok ())
    (hcor : ∀ o b, env.corrupt o b = b)
    (hb : sh.buffer_size ≠ 0)
    (hrun : perform_modern_wipe sh cfg env true = some (tr, w2, r)) :
    (∀ ev ∈ wearEvents sh, ev = WipeEvent.trimOp)
    ∧ (sh.storage_type.supports_secure_erase = true →
        (env.hwRes = .ok () →
          ∃ post, tr = WipeEvent.openFile
              :: (wearEvents sh ++ [WipeEvent.hwSecureErase] ++ post)
            ∧ tr.filter isPassEvent = [])
        ∧ (∀ e, env.hwRes = .error e →
          ∃ post, tr = WipeEvent.openFile :: (wearEvents sh
              ++ [WipeEvent.hwSecureErase, .passOverwrite .random,
                  .passOverwrite .zeros, .passOverwrite .ones,
                  .passOverwrite .random] ++ post)
            ∧ tr.filter isPassEvent
                = [.passOverwrite .random, .passOverwrite .zeros,
                   .passOverwrite .ones, .passOverwrite .random]))
    ∧ (sh.storage_type.supports_secure_erase = false →
        WipeEvent.hwSecureErase ∉ tr
        ∧ ∃ post, tr = WipeEvent.openFile :: (wearEvents sh
            ++ [WipeEvent.passOverwrite .random, .passOverwrite .zeros,
                .passOverwrite .ones, .passOverwrite .random] ++ post)
          ∧ tr.filter isPassEvent
              = [.passOverwrite .random, .passOverwrite .zeros,
                 .passOverwrite .ones, .passOverwrite .random]) := by
  unfold perform_modern_wipe at hrun
  obtain ⟨t1, hr1, rfl⟩ := wseq_prefix_trace _ _ true [.openFile] true ()
    (by simp [liftStep, hopen]) _ _ _ hrun
  obtain ⟨t2, hr2, rfl⟩ := wseq_prefix_trace _ _ true (wearEvents sh) true ()
    (wearSection_ok sh env true htrim) _ _ _ hr1
  have hsz : calculate_optimal_buffer_size env.content.length ≠ 0
      ∨ env.content.length = 0 := by
    by_cases h0 : env.content.length = 0
    · exact Or.inr h0
    · exact Or.inl (calc_pos _ h0)
  refine ⟨wearEvents_trim_only sh, ?_, ?_⟩
  · intro hsup
    constructor
    · intro hhw
      obtain ⟨t3, hr3, rfl⟩ := wseq_prefix_trace _ _ true [.hwSecureErase]
        true (env.content, List.replicate (calculate_optimal_buffer_size
          env.content.length) 0)
        (modernMethod_hwok sh cfg env _ _ true hm hsup hhw) _ _ _ hr2
      have hpost : ∀ ev ∈ t3, isPassEvent ev = false :=
        (traceOk_wseq (fun ev => isPassEvent ev = false) _ _
          (traceOk_modernVerify (fun ev => isPassEvent ev = false) cfg _ env
            (fun level => rfl))
          (fun _ => traceOk_finishSteps (fun ev => isPassEvent ev = false) env
            rfl rfl)) true t3 w2 r hr3
      have h3 : t3.filter isPassEvent = [] :=
        List.filter_eq_nil_iff.mpr (fun a ha => by simp [hpost a ha])
      refine ⟨t3, by simp, ?_⟩
      simp [List.filter_append, filter_pass_wearEvents, h3, isPassEvent]
    · intro e hhw
      obtain ⟨c2, b2, hmm, hlen⟩ := modernMethod_hwerr sh cfg env _ _ true e
        hm hsup hhw hb hcor hsz rfl
      obtain ⟨t3, hr3, rfl⟩ := wseq_prefix_trace _ _ true _ true (c2, b2)
        hmm _ _ _ hr2
      have hpost : ∀ ev ∈ t3, isPassEvent ev = false :=
        (traceOk_wseq (fun ev => isPassEvent ev = false) _ _
          (traceOk_modernVerify (fun ev => isPassEvent ev = false) cfg _ env
            (fun level => rfl))
          (fun _ => traceOk_finishSteps (fun ev => isPassEvent ev = false) env
            rfl rfl)) true t3 w2 r hr3
      have h3 : t3.filter isPassEvent = [] :=
        List.filter_eq_nil_iff.mpr (fun a ha => by simp [hpost a ha])
      refine ⟨t3, by simp [purgePatterns], ?_⟩
      simp [List.filter_append, filter_pass_wearEvents, h3, isPassEvent,
        purgePatterns]
  · intro hsup
    obtain ⟨c2, b2, hmm, hlen⟩ := modernMethod_nohw sh cfg env _ _ true
      hm hsup hb hcor hsz rfl
    obtain ⟨t3, hr3, rfl⟩ := wseq_prefix_trace _ _ true _ true (c2, b2)
      hmm _ _ _ hr2
    have hpost : ∀ ev ∈ t3, isPassEvent ev = false :=
      (traceOk_wseq (fun ev => isPassEvent ev = false) _ _
        (traceOk_modernVerify (fun ev => isPassEvent ev = false) cfg _ env
          (fun level => rfl))
        (fun _ => traceOk_finishSteps (fun ev => isPassEvent ev = false) env
          rfl rfl)) true t3 w2 r hr3
    have hnohw : ∀ ev ∈ t3, ev ≠ WipeEvent.hwSecureErase :=
      (traceOk_wseq (fun ev => ev ≠ WipeEvent.hwSecureErase) _ _
        (traceOk_modernVerify (fun ev => ev ≠ WipeEvent.hwSecureErase) cfg _
          env (fun level => by simp))
        (fun _ => traceOk_finishSteps (fun ev => ev ≠ WipeEvent.hwSecureErase)
          env (by simp) (by simp))) true t3 w2 r hr3
    have h3 : t3.filter isPassEvent = [] :=
      List.filter_eq_nil_iff.mpr (fun a ha => by simp [hpost a ha])
    constructor
    · intro hmem
      rcases List.mem_append.mp hmem with h1 | h1
      · exact absurd (List.mem_singleton.mp h1) (by decide)
      rcases List.mem_append.mp h1 with h2 | h2
      · exact absurd (wearEvents_trim_only sh _ h2) (by decide)
      rcases List.mem_append.mp h2 with h4 | h4
      · simp [purgePatterns] at h4
      · exact absurd rfl (hnohw _ h4)
    · refine ⟨t3, by simp [purgePatterns], ?_⟩
      simp [List.filter_append, filter_pass_wearEvents, h3, isPassEvent,
        purgePatterns]

/-- Witness for C2 at a concrete run whose hardware erase fails: the recorded
pass events are exactly the 4-pass fallback Random, Zeros, Ones, Random. -/
theorem modern_purge_spec_witness :
    ([WipeEvent.openFile, .trimOp, .hwSecureErase,
      .passOverwrite .random, .passOverwrite .zeros, .passOverwrite .ones,
      .passOverwrite .random, .syncAll, .removeFile].filter isPassEvent)
      = [.passOverwrite .random, .passOverwrite .zeros,
         .passOverwrite .ones, .passOverwrite .random] := by
  obtain ⟨post, htr, hfil⟩ :=
    ((modern_purge_spec shPurgeSsd cfgPurge envHwFail
      [WipeEvent.openFile, .trimOp, .hwSecureErase,
        .passOverwrite .random, .passOverwrite .zeros, .passOverwrite .ones,
        .passOverwrite .random, .syncAll, .removeFile] false (.ok ())
      rfl rfl rfl (fun _ _ => rfl) (by decide) rfl).2.1 rfl).2
      (.io "hw") rfl
  exact hfil

theorem wearSection_trim_step (sh : Shredder) (env : WipeEnv) (w : Bool)
    (hreq : sh.storage_type.requires_wear_leveling_handling = true)
    (hflag : sh.storage_type.trimFlag = true) :
    wearSection sh env w = some ([.trimOp], w, env.trimRes) := by
  unfold wearSection
  rw [if_pos hreq]
  unfold handle_wear_leveling
  cases hst : sh.storage_type with
  | hdd caps =>
    rw [hst] at hreq
    simp [StorageType.requires_wear_leveling_handling] at hreq
  | ssd caps =>
    rw [hst] at hflag
    simp only [StorageType.trimFlag] at hflag
    simp [hflag, liftStep]
  | flash caps =>
    rw [hst] at hflag
    simp only [StorageType.trimFlag] at hflag
    simp [hflag, liftStep]

theorem traceOk_wearSection_noflag (sh : Shredder) (env : WipeEnv)
    (hflag : sh.storage_type.trimFlag = false) :
    TraceOk (fun ev => ev ≠ WipeEvent.trimOp) (wearSection sh env) := by
  unfold wearSection
  by_cases hreq : sh.storage_type.requires_wear_leveling_handling = true
  · rw [if_pos hreq]
    unfold handle_wear_leveling
    cases hst : sh.storage_type with
    | hdd caps => exact traceOk_wpure _ ()
    | ssd caps =>
      rw [hst] at hflag
      simp only [StorageType.trimFlag] at hflag
      simp only [hflag, Bool.false_eq_true, if_false]
      exact traceOk_wpure _ ()
    | flash caps =>
      rw [hst] at hflag
      simp only [StorageType.trimFlag] at hflag
      simp only [hflag, Bool.false_eq_true, if_false]
      exact traceOk_wpure _ ()
  · rw [if_neg hreq]
    exact traceOk_wpure _ ()

/-! ## Claim C3: wear-leveling handling before overwriting -/

/-- Claim C3 counterexample: the claim asserts every standard variant attempts
a TRIM hint when the storage requires wear-leveling handling.  A Legacy DoD
wipe on an SSD that requires wear-leveling handling completes successfully
without ever attempting TRIM: `perform_legacy_wipe` has no wear-leveling call
at all. -/
theorem wear_leveling_only_modern_counterexample :
    shLegacyDod.storage_type.requires_wear_leveling_handling = true
    ∧ runWipe shLegacyDod envAllOk = some
        { result := .ok (),
          trace := [WipeEvent.openFile, .passOverwrite .zeros,
            .passOverwrite .ones, .passOverwrite .random, .syncAll,
            .removeFile],
          fileExists := false }
    ∧ WipeEvent.trimOp ∉ [WipeEvent.openFile, .passOverwrite .zeros,
        .passOverwrite .ones, .passOverwrite .random, .syncAll,
        .removeFile] :=
  ⟨rfl, rfl, by decide⟩

/-- Claim C3 (amended): only the Modern wipe performs wear-leveling handling.
In the Modern path, when the storage requires wear-leveling handling the TRIM
hint is attempted exactly when the capabilities also set `supports_trim`, and
it is attempted immediately after opening, before any overwrite pass; a
failure of an attempted TRIM aborts the wipe with that error, with no pass
written and the file left in place.  When `supports_trim` is unset no TRIM is
ever attempted, and the Legacy and Custom paths never attempt a TRIM hint at
all. -/
theorem wear_leveling_spec :
    (∀ (sh : Shredder) (cfg : Nist80088Config) (env : WipeEnv) tr w2 r,
      sh.storage_type.requires_wear_leveling_handling = true →
      sh.storage_type.trimFlag = true →
      env.openRes = .ok () →
      perform_modern_wipe sh cfg env true = some (tr, w2, r) →
      ∃ rest, tr = WipeEvent.openFile :: WipeEvent.trimOp :: rest)
    ∧ (∀ (sh : Shredder) (cfg : Nist80088Config) (env : WipeEnv) (e : WipeError),
      sh.storage_type.requires_wear_leveling_handling = true →
      sh.storage_type.trimFlag = true →
      env.openRes = .ok () →
      env.trimRes = .error e →
      perform_modern_wipe sh cfg env true
        = some ([WipeEvent.openFile, WipeEvent.trimOp], true, .error e))
    ∧ (∀ (sh : Shredder) (cfg : Nist80088Config) (env : WipeEnv) tr w2 r,
      sh.storage_type.trimFlag = false →
      perform_modern_wipe sh cfg env true = some (tr, w2, r) →
      WipeEvent.trimOp ∉ tr)
    ∧ (∀ (sh : Shredder) (cfg : LegacyConfig) (env : WipeEnv) tr w2 r,
      perform_legacy_wipe sh cfg env true = some (tr, w2, r) →
      WipeEvent.trimOp ∉ tr)
    ∧ (∀ (sh : Shredder) (cfg : WipeConfig) (env : WipeEnv) tr w2 r,
      perform_custom_wipe sh cfg env true = some (tr, w2, r) →
      WipeEvent.trimOp ∉ tr) := by
  refine ⟨?_, ?_, ?_, ?_, ?_⟩
  · intro sh cfg env tr w2 r hreq hflag hopen hrun
    unfold perform_modern_wipe at hrun
    obtain ⟨t1, hr1, rfl⟩ := wseq_prefix_trace _ _ true [.openFile] true ()
      (by simp [liftStep, hopen]) _ _ _ hrun
    cases htr : env.trimRes with
    | ok u =>
      cases u
      obtain ⟨t2, hr2, rfl⟩ := wseq_prefix_trace _ _ true [.trimOp] true ()
        (by rw [wearSection_trim_step sh env true hreq hflag, htr]) _ _ _ hr1
      exact ⟨t2, by simp⟩
    | error e =>
      rw [wseq_err_eval _ _ true [.trimOp] true e
        (by rw [wearSection_trim_step sh env true hreq hflag, htr])] at hr1
      simp only [Option.some.injEq, Prod.mk.injEq] at hr1
      obtain ⟨h1, _, _⟩ := hr1
      exact ⟨[], by rw [← h1]; rfl⟩
  · intro sh cfg env e hreq hflag hopen htrim
    unfold perform_modern_wipe
    rw [wseq_ok_eval _ _ true [.openFile] true ()
      (by simp [liftStep, hopen]) [.trimOp] true (.error e)
      (wseq_err_eval _ _ true [.trimOp] true e
        (by rw [wearSection_trim_step sh env true hreq hflag, htrim]))]
    rfl
  · intro sh cfg env tr w2 r hflag hrun
    have hto : TraceOk (fun ev => ev ≠ WipeEvent.trimOp)
        (perform_modern_wipe sh cfg env) := by
      unfold perform_modern_wipe
      apply traceOk_wseq (fun ev => ev ≠ WipeEvent.trimOp) _ _
        (traceOk_liftStep _ _ _ (by simp))
      intro _
      apply traceOk_wseq (fun ev => ev ≠ WipeEvent.trimOp) _ _
        (traceOk_wearSection_noflag sh env hflag)
      intro _
      apply traceOk_wseq (fun ev => ev ≠ WipeEvent.trimOp) _ _
        (traceOk_modernMethod _ sh cfg env _ _ (fun p => by simp)
          (fun level => by simp) (by simp))
      intro cb
      apply traceOk_wseq (fun ev => ev ≠ WipeEvent.trimOp) _ _
        (traceOk_modernVerify _ cfg cb env (fun level => by simp))
      intro _
      exact traceOk_finishSteps _ env (by simp) (by simp)
    exact fun hmem => absurd rfl (hto true tr w2 r hrun _ hmem)
  · intro sh cfg env tr w2 r hrun
    have hto : TraceOk (fun ev => ev ≠ WipeEvent.trimOp)
        (perform_legacy_wipe sh cfg env) := by
      unfold perform_legacy_wipe
      apply traceOk_wseq (fun ev => ev ≠ WipeEvent.trimOp) _ _
        (traceOk_liftStep _ _ _ (by simp))
      intro _
      apply traceOk_wseq (fun ev => ev ≠ WipeEvent.trimOp) _ _
        (traceOk_passLoop _ _ _ _ _ _ (fun p => by simp)
          (fun level => by simp) _ _ _ _)
      intro cb
      apply traceOk_wseq (fun ev => ev ≠ WipeEvent.trimOp)
      · by_cases hv : cfg.extra_verification
        · rw [if_pos hv]
          exact traceOk_verifyStep _ _ _ _ _ (by simp)
        · rw [if_neg hv]
          exact traceOk_wpure _ ()
      · intro _
        exact traceOk_finishSteps _ env (by simp) (by simp)
    exact fun hmem => absurd rfl (hto true tr w2 r hrun _ hmem)
  · intro sh cfg env tr w2 r hrun
    have hto : TraceOk (fun ev => ev ≠ WipeEvent.trimOp)
        (perform_custom_wipe sh cfg env) := by
      unfold perform_custom_wipe
      apply traceOk_wseq (fun ev => ev ≠ WipeEvent.trimOp) _ _
        (traceOk_liftStep _ _ _ (by simp))
      intro _
      apply traceOk_wseq (fun ev => ev ≠ WipeEvent.trimOp) _ _
        (traceOk_passLoop _ _ _ _ _ _ (fun p => by simp)
          (fun level => by simp) _ _ _ _)
      intro _
      exact traceOk_finishSteps _ env (by simp) (by simp)
    exact fun hmem => absurd rfl (hto true tr w2 r hrun _ hmem)

/-- Witness for the amended C3: a Modern wipe on a wear-leveled SSD whose TRIM
fails aborts right after open and TRIM, with that error, no pass written and
the file still in place. -/
theorem wear_leveling_spec_witness :
    perform_modern_wipe shPurgeSsd cfgPurge envTrimFail true
      = some ([WipeEvent.openFile, WipeEvent.trimOp], true,
          .error (.io "trim")) :=
  wear_leveling_spec.2.1 shPurgeSsd cfgPurge envTrimFail (.io "trim")
    rfl rfl rfl rfl
